import Mathlib

/-!
Verification development for the jcontext repository.

Part 1 embeds `jcontext/file_indexer.py` (class `FileIndexer`): the index is
the Python dict `file_index : Dict[str, Set[str]]`, modelled as an
insertion-ordered association list whose value sets are insertion-ordered
duplicate-free lists (Python dicts preserve insertion order; for `set` the
model fixes insertion order as the iteration order, which the source leaves
unspecified).  The asynchronous cancellation flag `_cancel_indexing` is
modelled by an oracle `cancelAt : Option Nat`: the flag is observed `true`
from the `cancelAt`-th read of the flag onwards (`refresh_index` resets the
flag to `False` on entry and `cancel_indexing` only ever sets it to `True`,
so the real flag is monotone during one rebuild and becomes true at some
read position, or never).

Part 2 embeds `jcontext/content_processor.py` (class `ContentProcessor`)
over `List Char`, with the two regex scans of the source implemented as
explicit fuel-driven scanners.
-/

namespace JContext

/-! ## Small string helpers -/

/-- Whitespace characters stripped by Python's `str.strip()`. -/
def isPyWs (c : Char) : Bool :=
  c == ' ' || c == '\t' || c == '\n' || c == '\r' || c == '\x0b' || c == '\x0c'

/-- Python `str.strip()` on a character list. -/
def pyStripL (l : List Char) : List Char :=
  ((l.dropWhile isPyWs).reverse.dropWhile isPyWs).reverse

/-- Python `str.strip()`. -/
def pyStrip (s : String) : String :=
  (pyStripL s.data).asString

/-- Test whether `p` is a prefix of `s` (Python `str.startswith` / regex literal match). -/
def leadsWith : List Char → List Char → Bool
  | [], _ => true
  | _ :: _, [] => false
  | p :: ps, c :: cs => p == c && leadsWith ps cs

/-- Test whether `p` occurs as a contiguous substring of `s` (Python `in`). -/
def occursB (p : List Char) : List Char → Bool
  | [] => leadsWith p []
  | c :: cs => leadsWith p (c :: cs) || occursB p cs

/-- Python `needle in hay` on strings. -/
def containsSub (hay needle : String) : Bool :=
  occursB needle.data hay.data

/-- ASCII lower-casing of one character (Python `str.lower()` restricted to
ASCII, which covers every string this development evaluates). -/
def lowC (c : Char) : Char :=
  if 'A' ≤ c && c ≤ 'Z' then Char.ofNat (c.toNat + 32) else c

/-- Python `s.lower()`. -/
def toLowerS (s : String) : String := (s.data.map lowC).asString

/-- Python `s.startswith(pre)`. -/
def startsWithS (s pre : String) : Bool := leadsWith pre.data s.data

/-- Index (0-based) of the last `.` in a file name, if any. -/
def lastDotIdx (l : List Char) : Option Nat :=
  ((l.enum.filter (fun p => p.2 == '.')).map (·.1)).getLast?

/-- The POSIX basename: the part after the last `/`. -/
def afterLastSlash (l : List Char) : List Char :=
  l.foldl (fun acc c => if c == '/' then [] else acc ++ [c]) []

/-- Python `os.path.splitext(path)[1]`: the extension starting at the last
dot of the basename, except that leading dots of the basename never start
an extension (`.gitignore` has extension `""`). -/
def splitextExt (name : String) : String :=
  match lastDotIdx (afterLastSlash name.data) with
  | none => ""
  | some i =>
    if ((afterLastSlash name.data).take i).any (fun c => c != '.') then
      ((afterLastSlash name.data).drop i).asString
    else ""

/-! ## FileIndexer configuration (constants of `FileIndexer.__init__`) -/

/-- Source: `self.indexed_extensions` in `FileIndexer.__init__`. -/
def indexed_extensions : List String :=
  [".py", ".js", ".ts", ".jsx", ".tsx", ".java", ".cpp", ".c", ".h",
   ".cs", ".php", ".rb", ".go", ".rs", ".swift", ".kt", ".scala",
   ".html", ".css", ".scss", ".less", ".xml", ".json", ".yaml", ".yml",
   ".md", ".txt", ".rst", ".sql", ".sh", ".bat", ".ps1", ".r", ".m"]

/-- Source: `self.ignored_dirs` in `FileIndexer.__init__`. -/
def ignored_dirs : List String :=
  ["__pycache__", ".git", ".svn", ".hg", ".vscode", ".idea",
   "node_modules", ".env", "venv", ".venv", "env", "ENV",
   "dist", "build", "target", "bin", "obj", ".pytest_cache"]

/-- Dot-names that are not skipped: `{'.gitignore', '.env.example'}`. -/
def dotfile_allow : List String := [".gitignore", ".env.example"]

/-- Skip test applied to every directory entry:
`name.startswith('.') and name not in {'.gitignore', '.env.example'}`. -/
def skipDot (name : String) : Bool :=
  startsWithS name "." && !(dotfile_allow.contains name)

/-- File filter: `ext.lower() in self.indexed_extensions or not ext`. -/
def extOk (name : String) : Bool :=
  let ext := toLowerS (splitextExt name)
  indexed_extensions.contains ext || ext == ""

/-! ## Filesystem model

A directory entry is a file or a directory; listing a directory either
succeeds, raises `PermissionError` (caught by the source) or raises some
other exception (which propagates, e.g. the root disappearing). -/

/-- Outcome of `os.scandir` on a directory. -/
inductive DirStatus where
  | ok
  | permDenied
  | broken (msg : String)
deriving DecidableEq, Repr

/-- One entry of a directory tree. -/
inductive FSEntry where
  | file (name : String)
  | dir (name : String) (status : DirStatus) (entries : List FSEntry)
deriving Repr

/-- Joining a root-relative directory with an entry name, as
`os.path.relpath(entry.path, self.root_path)` produces on POSIX. -/
def joinRel (relDir name : String) : String :=
  if relDir == "." then name else relDir ++ "/" ++ name

/-! ## Cancellation oracle -/

/-- Observed value of `self._cancel_indexing` at the `checks`-th read:
with `cancelAt = some n` the flag is observed set from the `n`-th read
(0-based) onwards; `none` means it is never set. -/
def cancelFlag : Option Nat → Nat → Bool
  | some n, checks => decide (n ≤ checks)
  | none, _ => false

/-- One read of `self._cancel_indexing`: the observed value and the
updated read counter. -/
def flagRead (cancelAt : Option Nat) (checks : Nat) : Bool × Nat :=
  (cancelFlag cancelAt checks, checks + 1)

/-! ## Index structure -/

/-- Search-key index: `Dict[str, Set[str]]`, insertion ordered. -/
abbrev Index := List (String × List String)

/-- One set-insert: add `path` to the set unless already present. -/
def setAdd (paths : List String) (path : String) : List String :=
  if paths.contains path then paths else paths ++ [path]

/-- Source: `self.file_index.setdefault(key, set()).add(path)`. -/
def idxAdd (idx : Index) (key path : String) : Index :=
  match idx with
  | [] => [(key, [path])]
  | (k, ps) :: rest =>
    if k == key then (k, setAdd ps path) :: rest
    else (k, ps) :: idxAdd rest key path

/-- Transient `self._indexing_stats`. -/
structure Stats where
  files_processed : Nat
  total_files : Nat
  current_dir : String
deriving DecidableEq, Repr

/-- State threaded through `_build_index`: the dict under construction, the
stats dict, the flag-read counter, and the list of stats snapshots passed to
`_report_progress` (each is the `self._indexing_stats.copy()` handed to the
progress callback when one is installed). -/
structure BuildSt where
  index : Index
  stats : Stats
  checks : Nat
  reports : List Stats
deriving Repr

/-- Source: `self._report_progress()` with a callback installed. -/
def report (st : BuildSt) : BuildSt :=
  { st with reports := st.reports ++ [st.stats] }

/-- Name of a directory entry. -/
def FSEntry.name : FSEntry → String
  | .file n => n
  | .dir n _ _ => n

/-! ## Counting pass (`FileIndexer._count_files`)

Each function returns `(count, checks, raised)`: the value of `count`, the
updated flag-read counter, and the exception message if one propagated
(`PermissionError` is caught by the source and never propagates; any other
scandir failure does). -/

mutual

/-- Contribution of a single entry to `_count_files` (after the dot-skip
test, which the loop applies first). -/
def countEntry (cancelAt : Option Nat) : FSEntry → Nat → Nat × Nat × Option String
  | .file name, checks =>
    if extOk name then (1, checks, none) else (0, checks, none)
  | .dir name dst dents, checks =>
    if ignored_dirs.contains name then (0, checks, none)
    else
      match dst with
      | .permDenied => (0, checks, none)
      | .broken m => (0, checks, some m)
      | .ok => countList cancelAt dents checks

/-- Body of `_count_files`'s `for entry in it` loop. -/
def countList (cancelAt : Option Nat) : List FSEntry → Nat → Nat × Nat × Option String
  | [], checks => (0, checks, none)
  | e :: rest, checks =>
    let fc := flagRead cancelAt checks
    if fc.1 then (0, fc.2, none)
    else if skipDot e.name then countList cancelAt rest fc.2
    else
      let r := countEntry cancelAt e fc.2
      match r.2.2 with
      | some m => (r.1, r.2.1, some m)
      | none =>
        let s := countList cancelAt rest r.2.1
        (r.1 + s.1, s.2)

end

/-- Source: `self._count_files(path)` on a directory with listing outcome
`status`; a `PermissionError` on the directory itself yields 0, any other
failure propagates. -/
def countDir (cancelAt : Option Nat) (status : DirStatus) (entries : List FSEntry)
    (checks : Nat) : Nat × Nat × Option String :=
  match status with
  | .permDenied => (0, checks, none)
  | .broken m => (0, checks, some m)
  | .ok => countList cancelAt entries checks

/-! ## Build pass (`FileIndexer._build_index`) -/

/-- The `current_dir` update at a directory entry. -/
def setDir (relDir : String) (st : BuildSt) : BuildSt :=
  { st with stats := { st.stats with current_dir := relDir } }

/-- The `if self._indexing_stats['files_processed'] % 50 == 0:
self._report_progress()` step. -/
def reportOn50 (st : BuildSt) : BuildSt :=
  if st.stats.files_processed % 50 == 0 then report st else st

/-- Directory-entry actions of `_build_index`: set `current_dir` to the
directory's relative path and report when `files_processed % 50 == 0`. -/
def enterDir (relDir : String) (st : BuildSt) : BuildSt :=
  reportOn50 (setDir relDir st)

/-- Index and stats mutation for one indexed file: register the bare
filename and the relative path as keys for the relative path and bump
`files_processed`. -/
def addFile (relDir name : String) (st : BuildSt) : BuildSt :=
  { st with
    index := idxAdd (idxAdd st.index name (joinRel relDir name))
      (joinRel relDir name) (joinRel relDir name),
    stats := { st.stats with files_processed := st.stats.files_processed + 1 } }

/-- File actions of `_build_index`: `addFile`, then report on multiples of
50. -/
def processFile (relDir name : String) (st : BuildSt) : BuildSt :=
  reportOn50 (addFile relDir name st)

mutual

/-- Effect of a single entry in `_build_index` (after the dot-skip test).
The error component models a non-`PermissionError` exception propagating
out of the recursion. -/
def buildEntry (cancelAt : Option Nat) (relDir : String) :
    FSEntry → BuildSt → BuildSt × Option String
  | .file name, st =>
    if extOk name then (processFile relDir name st, none) else (st, none)
  | .dir name dst dents, st =>
    if ignored_dirs.contains name then (st, none)
    else
      let childRel := joinRel relDir name
      let stE := enterDir childRel st
      match dst with
      | .permDenied => (stE, none)
      | .broken m => (stE, some m)
      | .ok => buildList cancelAt childRel dents stE

/-- Body of `_build_index`'s `for entry in it` loop. -/
def buildList (cancelAt : Option Nat) (relDir : String) :
    List FSEntry → BuildSt → BuildSt × Option String
  | [], st => (st, none)
  | e :: rest, st =>
    let fc := flagRead cancelAt st.checks
    let st1 := { st with checks := fc.2 }
    if fc.1 then (st1, none)
    else if skipDot e.name then buildList cancelAt relDir rest st1
    else
      let r := buildEntry cancelAt relDir e st1
      match r.2 with
      | some m => (r.1, some m)
      | none => buildList cancelAt relDir rest r.1

end

/-- Source: `self._build_index(self.root_path)`: relative path `"."`,
then the directory listing with its loop. -/
def buildRoot (cancelAt : Option Nat) (status : DirStatus) (entries : List FSEntry)
    (st : BuildSt) : BuildSt × Option String :=
  let stE := enterDir "." st
  match status with
  | .permDenied => (stE, none)
  | .broken m => (stE, some m)
  | .ok => buildList cancelAt "." entries stE

/-! ## `FileIndexer.refresh_index` -/

/-- Argument passed to the progress callback: a stats snapshot or one of
the dict-shaped terminal messages. -/
inductive Event where
  | progress (s : Stats)
  | error (msg : String)
  | cancelled
  | completed
deriving DecidableEq, Repr

/-- Result of one `refresh_index` call: the resulting `self.file_index`,
the arguments passed to the progress callback in order, whether the update
callback was invoked, and the final `self._indexing_stats` (meaningful when
a root is configured; with no root the method returns before touching
anything). -/
structure RefreshResult where
  index : Index
  events : List Event
  updateCalled : Bool
  finalStats : Stats
deriving Repr

/-- Stats snapshot emitted before the counting pass
(`{'files_processed': 0, 'total_files': 0, 'current_dir': 'Scanning...'}`). -/
def scanStats : Stats := ⟨0, 0, "Scanning..."⟩

/-- The single terminal event emitted by the `finally` clause of
`refresh_index`: `cancelled` if the flag is observed set, else
`completed`. -/
def finishEvent (flag : Bool) : Event := if flag then .cancelled else .completed

/-- Events emitted before the counting pass (only with a callback). -/
def preEvents (hasProgress : Bool) : List Event :=
  if hasProgress then [.progress scanStats] else []

/-- Value of `current_dir` after the counting phase. -/
def cdirAfterCount (hasProgress : Bool) : String :=
  if hasProgress then "Scanning..." else ""

/-- Progress events actually delivered for the build-pass report list. -/
def progressEvents (hasProgress : Bool) (rs : List Stats) : List Event :=
  if hasProgress then rs.map Event.progress else []

/-- Locked section of `refresh_index`: `self.file_index.clear()`, then the
flag test guarding `self._build_index(self.root_path)`. -/
def buildPhase (cancelAt : Option Nat) (rst : DirStatus) (entries : List FSEntry)
    (total checks1 : Nat) (cd : String) : BuildSt × Option String :=
  let st0 : BuildSt := ⟨[], ⟨0, total, cd⟩, checks1, []⟩
  let f1 := flagRead cancelAt st0.checks
  if f1.1 then ({ st0 with checks := f1.2 }, none)
  else buildRoot cancelAt rst entries { st0 with checks := f1.2 }

/-- Tail of `refresh_index` after the locked section: the update-callback
guard, the `except` clause for a build-phase exception, and the `finally`
clause. -/
def refreshBuilt (cancelAt : Option Nat) (hasProgress hasUpdate : Bool) :
    BuildSt × Option String → RefreshResult
  | (stB, some m) =>
    ⟨stB.index,
      preEvents hasProgress ++ progressEvents hasProgress stB.reports
        ++ [.error m, finishEvent (flagRead cancelAt stB.checks).1],
      false, stB.stats⟩
  | (stB, none) =>
    let fu := if hasUpdate then flagRead cancelAt stB.checks else (false, stB.checks)
    ⟨stB.index,
      preEvents hasProgress ++ progressEvents hasProgress stB.reports
        ++ [finishEvent (flagRead cancelAt fu.2).1],
      hasUpdate && !fu.1, stB.stats⟩

/-- Continuation of `refresh_index` on the counting pass's outcome.  When
the counting pass raised, the `except` clause reports the error and the
`finally` clause still emits a terminal event; the lock block (and hence
`file_index.clear()`) was never reached, so the previous index survives. -/
def refreshCounted (cancelAt : Option Nat) (hasProgress hasUpdate : Bool)
    (rst : DirStatus) (entries : List FSEntry) (prev : Index) :
    Nat × Nat × Option String → RefreshResult
  | (_, checks1, some m) =>
    ⟨prev,
      preEvents hasProgress ++ [.error m, finishEvent (flagRead cancelAt checks1).1],
      false, ⟨0, 0, cdirAfterCount hasProgress⟩⟩
  | (total, checks1, none) =>
    refreshBuilt cancelAt hasProgress hasUpdate
      (buildPhase cancelAt rst entries total checks1 (cdirAfterCount hasProgress))

/-- Source: `FileIndexer.refresh_index`.  `root` is `self.root_path`
together with the scan outcome of the tree below it; `prev` is the
committed `self.file_index` before the call.  `self.last_updated` (wall
clock) is not modelled. -/
def refresh_index (cancelAt : Option Nat) (hasProgress hasUpdate : Bool)
    (root : Option (DirStatus × List FSEntry)) (prev : Index) : RefreshResult :=
  match root with
  | none => ⟨prev, [], false, ⟨0, 0, ""⟩⟩
  | some (rst, entries) =>
    refreshCounted cancelAt hasProgress hasUpdate rst entries prev
      (if hasProgress then countDir cancelAt rst entries 0 else (0, 0, none))

/-! ## `FileIndexer.search_files`

The compiled regex is abstracted as `Option (String → Bool)`: `none` models
`re.compile(query)` raising `re.error` (`use_regex = False`), `some f`
models a compiled pattern whose `pattern.search(key)` is truthy iff
`f key`.  `limit` is a natural number (the source's slicing semantics for
non-negative limits). -/

/-- The four per-tier accumulators of the `search_files` loop. -/
structure Tiers where
  exact_matches : List String
  prefix_matches : List String
  contains_matches : List String
  regex_matches : List String
deriving DecidableEq, Repr

/-- One iteration of the `for filepath in paths` body: the
`if/elif` chain appending `filepath` to the first tier whose test passes. -/
def classify (q : String) (rx : Option (String → Bool)) (key : String)
    (t : Tiers) (filepath : String) : Tiers :=
  if toLowerS key == toLowerS q then
    { t with exact_matches := t.exact_matches ++ [filepath] }
  else if startsWithS (toLowerS key) (toLowerS q) then
    { t with prefix_matches := t.prefix_matches ++ [filepath] }
  else if containsSub (toLowerS key) (toLowerS q) then
    { t with contains_matches := t.contains_matches ++ [filepath] }
  else if (match rx with | some f => f key | none => false) then
    { t with regex_matches := t.regex_matches ++ [filepath] }
  else t

/-- The `for key, paths in self.file_index.items()` loop. -/
def tierLists (idx : Index) (rx : Option (String → Bool)) (q : String) : Tiers :=
  idx.foldl (fun t kv => kv.2.foldl (classify q rx kv.1) t) ⟨[], [], [], []⟩

/-- The `seen`-set deduplication loop of `search_files`. -/
def uniqueAux (seen : List String) : List String → List String
  | [] => []
  | x :: xs => if x ∈ seen then uniqueAux seen xs else x :: uniqueAux (x :: seen) xs

/-- One `if remaining > 0: matches.extend(tier[:remaining])` step of
`search_files`. -/
def addTier (ms : List String) (tier : List String) (limit : Nat) : List String :=
  if limit - ms.length > 0 then ms ++ tier.take (limit - ms.length) else ms

/-- The tier concatenation, deduplication and final truncation of
`search_files`. -/
def combineTiers (t : Tiers) (limit : Nat) : List String :=
  (uniqueAux []
    (addTier (addTier (addTier (t.exact_matches.take limit)
      t.prefix_matches limit) t.contains_matches limit) t.regex_matches limit)).take limit

/-- Query preprocessing of `search_files`: `strip()`, then dropping a
leading `@`. -/
def cleanedQuery (query : String) : String :=
  if startsWithS (pyStrip query) "@" then (pyStrip query).drop 1 else pyStrip query

/-- Source: `FileIndexer.search_files(query, limit)`. -/
def search_files (idx : Index) (rx : Option (String → Bool)) (query : String)
    (limit : Nat) : List String :=
  if query == "" || idx.isEmpty then []
  else if cleanedQuery query == "" then []
  else combineTiers (tierLists idx rx (cleanedQuery query)) limit

/-! ## Lemmas about `search_files` -/

lemma uniqueAux_nodup_and_disjoint (l : List String) :
    ∀ seen, (uniqueAux seen l).Nodup ∧ ∀ x ∈ uniqueAux seen l, x ∉ seen := by
  induction l with
  | nil => intro seen; simp [uniqueAux]
  | cons x xs ih =>
    intro seen
    by_cases hx : x ∈ seen
    · simp only [uniqueAux, hx, if_true]
      exact ⟨(ih seen).1, fun y hy => (ih seen).2 y hy⟩
    · have h2 := ih (x :: seen)
      refine ⟨?_, ?_⟩
      · simp only [uniqueAux, hx, if_false, List.nodup_cons]
        exact ⟨fun hmem => (h2.2 x hmem) (List.mem_cons_self x seen), h2.1⟩
      · intro y hy
        simp only [uniqueAux, hx, if_false, List.mem_cons] at hy
        rcases hy with rfl | hy
        · exact hx
        · exact fun hseen => (h2.2 y hy) (List.mem_cons_of_mem _ hseen)

lemma uniqueAux_nodup (l : List String) : (uniqueAux [] l).Nodup :=
  (uniqueAux_nodup_and_disjoint l []).1

lemma combineTiers_length_le (t : Tiers) (limit : Nat) :
    (combineTiers t limit).length ≤ limit := by
  unfold combineTiers
  simpa using Nat.min_le_left _ _

lemma combineTiers_nodup (t : Tiers) (limit : Nat) : (combineTiers t limit).Nodup :=
  (uniqueAux_nodup _).sublist (List.take_sublist _ _)

/-- Claim C4: for every index state, regex outcome, query and limit, the
result of `search_files` has length at most the limit and its elements are
pairwise distinct. -/
theorem search_files_length_le_and_nodup (idx : Index) (rx : Option (String → Bool))
    (query : String) (limit : Nat) :
    (search_files idx rx query limit).length ≤ limit ∧
      (search_files idx rx query limit).Nodup := by
  unfold search_files
  split
  · simp
  · split
    · simp
    · exact ⟨combineTiers_length_le _ _, combineTiers_nodup _ _⟩

/-! ### Claim C7: an invalid regex pattern contributes nothing -/

lemma classify_invalid_eq (q key : String) (t : Tiers) (fp : String) :
    classify q (some (fun _ => false)) key t fp = classify q none key t fp := rfl

lemma classify_none_regex (q key : String) (t : Tiers) (fp : String) :
    (classify q none key t fp).regex_matches = t.regex_matches := by
  unfold classify
  split_ifs <;> first | rfl | contradiction

lemma foldl_classify_none_regex (q key : String) (paths : List String) :
    ∀ t : Tiers, (paths.foldl (classify q none key) t).regex_matches = t.regex_matches := by
  induction paths with
  | nil => intro t; rfl
  | cons p ps ih => intro t; rw [List.foldl_cons, ih, classify_none_regex]

lemma tierLists_none_regex (idx : Index) (q : String) :
    (tierLists idx none q).regex_matches = [] := by
  suffices h : ∀ t : Tiers,
      (idx.foldl (fun t kv => kv.2.foldl (classify q none kv.1) t) t).regex_matches
        = t.regex_matches by
    exact h ⟨[], [], [], []⟩
  induction idx with
  | nil => intro t; rfl
  | cons kv rest ih => intro t; rw [List.foldl_cons, ih, foldl_classify_none_regex]

lemma tierLists_invalid_eq (idx : Index) (q : String) :
    tierLists idx (some (fun _ => false)) q = tierLists idx none q := by
  unfold tierLists
  have h : classify q (some (fun _ => false)) = classify q none := by
    funext key t fp; exact classify_invalid_eq q key t fp
  rw [h]

/-- Claim C7: when the query does not compile as a regex (`rx = none`, the
source's `use_regex = False`), `search_files` behaves exactly like a search
whose regex tier matches nothing: the regex tier contributes zero matches
and the exact/prefix/substring tiers are evaluated normally; no error is
possible (the model is total). -/
theorem search_files_invalid_regex (idx : Index) (query : String) (limit : Nat) :
    search_files idx none query limit
      = search_files idx (some (fun _ => false)) query limit
    ∧ ∀ q : String, (tierLists idx none q).regex_matches = [] := by
  constructor
  · unfold search_files
    rw [tierLists_invalid_eq]
  · exact fun q => tierLists_none_regex idx q

/-! ### Claim C6: searching for a bare filename -/

/-- The paths contributed to the exact tier, in index order. -/
def exactOf : Index → String → List String
  | [], _ => []
  | (k, ps) :: rest, q => (if toLowerS k == toLowerS q then ps else []) ++ exactOf rest q

lemma classify_exact_of_ne (q : String) (rx : Option (String → Bool)) (key : String)
    (t : Tiers) (fp : String) (h : (toLowerS key == toLowerS q) = false) :
    (classify q rx key t fp).exact_matches = t.exact_matches := by
  unfold classify
  rw [h]
  split_ifs <;> first | rfl | contradiction

lemma foldl_classify_exact (q : String) (rx : Option (String → Bool)) (key : String)
    (paths : List String) :
    ∀ t : Tiers, (paths.foldl (classify q rx key) t).exact_matches
      = t.exact_matches ++ (if toLowerS key == toLowerS q then paths else []) := by
  induction paths with
  | nil => intro t; simp
  | cons p ps ih =>
    intro t
    rw [List.foldl_cons, ih]
    by_cases h : (toLowerS key == toLowerS q) = true
    · simp [classify, h]
    · rw [Bool.not_eq_true] at h
      simp [classify_exact_of_ne q rx key t p h, h]

lemma tierLists_exact (idx : Index) (rx : Option (String → Bool)) (q : String) :
    (tierLists idx rx q).exact_matches = exactOf idx q := by
  suffices h : ∀ t : Tiers,
      (idx.foldl (fun t kv => kv.2.foldl (classify q rx kv.1) t) t).exact_matches
        = t.exact_matches ++ exactOf idx q by
    exact h ⟨[], [], [], []⟩
  induction idx with
  | nil => intro t; simp [exactOf]
  | cons kv rest ih =>
    intro t
    rw [List.foldl_cons, ih, foldl_classify_exact]
    simp [exactOf]

lemma addTier_append (ms tier : List String) (limit : Nat) :
    ∃ rest, addTier ms tier limit = ms ++ rest := by
  unfold addTier
  split
  · exact ⟨_, rfl⟩
  · exact ⟨[], (List.append_nil ms).symm⟩

/-- Claim C6 (amended): if the query is a bare filename that survives the
query-cleaning unchanged, and exactly one search key matches it
case-insensitively, carrying exactly one path `p` (that file's relative
path), then `search_files` with any limit of at least 1 returns `p`
first.  (The unamended claim fails when several indexed files share the
filename; see the counterexample.) -/
theorem search_files_filename_first (idx : Index) (rx : Option (String → Bool))
    (q p : String) (lim : Nat) (hstrip : pyStrip q = q)
    (hat : startsWithS q "@" = false) (hne : q ≠ "")
    (hexact : exactOf idx q = [p]) (hlim : 1 ≤ lim) :
    (search_files idx rx q lim).head? = some p := by
  have hidx : idx ≠ [] := by
    intro h
    rw [h] at hexact
    exact absurd hexact (by simp [exactOf])
  have hclean : cleanedQuery q = q := by
    unfold cleanedQuery
    rw [hstrip, hat]
    simp
  unfold search_files
  rw [hclean]
  have hq : (q == "") = false := by simpa using hne
  have hie : idx.isEmpty = false := by
    cases idx with
    | nil => exact absurd rfl hidx
    | cons a l => rfl
  rw [hq, hie]
  simp only [Bool.or_self, Bool.false_eq_true, if_false]
  unfold combineTiers
  rw [tierLists_exact, hexact]
  have h1 : [p].take lim = [p] := List.take_of_length_le (by simpa using hlim)
  rw [h1]
  obtain ⟨r1, e1⟩ := addTier_append [p] (tierLists idx rx q).prefix_matches lim
  obtain ⟨r2, e2⟩ := addTier_append ([p] ++ r1) (tierLists idx rx q).contains_matches lim
  obtain ⟨r3, e3⟩ := addTier_append ([p] ++ r1 ++ r2) (tierLists idx rx q).regex_matches lim
  rw [e1, e2, e3]
  have hu : uniqueAux [] (p :: (r1 ++ r2 ++ r3)) = p :: uniqueAux [p] (r1 ++ r2 ++ r3) := by
    simp [uniqueAux]
  obtain ⟨n, rfl⟩ : ∃ n, lim = n + 1 := ⟨lim - 1, by omega⟩
  simp only [List.append_assoc, List.cons_append, List.nil_append] at hu ⊢
  rw [hu, List.take_succ_cons]
  rfl

/-- Witness for `search_files_filename_first` on a one-file index. -/
theorem search_files_filename_first_witness :
    pyStrip "foo.py" = "foo.py" ∧ startsWithS "foo.py" "@" = false ∧ "foo.py" ≠ ""
    ∧ exactOf [("foo.py", ["a/foo.py"]), ("a/foo.py", ["a/foo.py"])] "foo.py" = ["a/foo.py"]
    ∧ (search_files [("foo.py", ["a/foo.py"]), ("a/foo.py", ["a/foo.py"])]
        none "foo.py" 1).head? = some "a/foo.py" :=
  ⟨by decide, by decide, by decide, by decide,
    search_files_filename_first _ none "foo.py" "a/foo.py" 1
      (by decide) (by decide) (by decide) (by decide) (by decide)⟩

/-- Directory tree with two files named `foo.py`, in directories `a` and
`b`. -/
def c6tree : List FSEntry := [.dir "a" .ok [.file "foo.py"], .dir "b" .ok [.file "foo.py"]]

/-- The committed index after an uncancelled, error-free rebuild of
`c6tree`. -/
def c6idx : Index := (refresh_index none false false (some (.ok, c6tree)) []).index

/-- Counterexample to claim C6 as stated: `b/foo.py` is an indexed file
whose bare filename is `foo.py` (the index maps the key `foo.py` to it),
yet `search_files "foo.py" 3` returns `a/foo.py` first, not `b/foo.py`. -/
theorem search_files_filename_first_counterexample :
    c6idx = [("foo.py", ["a/foo.py", "b/foo.py"]), ("a/foo.py", ["a/foo.py"]),
      ("b/foo.py", ["b/foo.py"])]
    ∧ "b/foo.py" ∈ exactOf c6idx "foo.py"
    ∧ search_files c6idx none "foo.py" 3 = ["a/foo.py", "b/foo.py"]
    ∧ (search_files c6idx none "foo.py" 3).head? ≠ some "b/foo.py" := by
  refine ⟨by decide, by decide, by decide, by decide⟩

/-! ### Claim C10: per-tier truncation happens before deduplication -/

/-- Directory tree with files `a/foo.py` and `boo.py`. -/
def c10tree : List FSEntry := [.dir "a" .ok [.file "foo.py"], .file "boo.py"]

/-- The committed index after an uncancelled, error-free rebuild of
`c10tree`. -/
def c10idx : Index := (refresh_index none false false (some (.ok, c10tree)) []).index

/-- Claim C10: on the index of `c10tree`, the query `oo.py` with limit 2
returns a single path even though two distinct indexed paths match the
substring tier: `a/foo.py` enters the tier twice (once per search key), the
tier is truncated to the budget of 2 before deduplication, and
deduplication then collapses the two copies. -/
theorem search_files_truncation_before_dedup :
    search_files c10idx none "oo.py" 2 = ["a/foo.py"]
    ∧ (search_files c10idx none "oo.py" 2).length < 2
    ∧ (tierLists c10idx none "oo.py").contains_matches = ["a/foo.py", "a/foo.py", "boo.py"]
    ∧ "a/foo.py" ∈ (tierLists c10idx none "oo.py").contains_matches
    ∧ "boo.py" ∈ (tierLists c10idx none "oo.py").contains_matches
    ∧ "a/foo.py" ≠ "boo.py" := by
  refine ⟨by decide, by decide, by decide, by decide, by decide, by decide⟩

/-! ### Claim C1: what cancellation does to the committed snapshot -/

/-- Claim C1 (amended): cancelling a rebuild does not preserve the
previously committed snapshot.  `refresh_index` clears the mapping inside
the lock before checking the cancellation flag, so when the flag is
observed from the start (cancellation before the build pass), the
resulting index is empty whatever was committed before; the events are the
initial scanning snapshot followed by exactly one `cancelled` terminal
event, the update callback is not invoked, and every subsequent
`search_files` on the result returns `[]`. -/
theorem refresh_cancelled_discards_snapshot (entries : List FSEntry) (hasUpdate : Bool)
    (prev : Index) :
    refresh_index (some 0) true hasUpdate (some (.ok, entries)) prev
      = ⟨[], [.progress scanStats, .cancelled], false, ⟨0, 0, "Scanning..."⟩⟩
    ∧ ∀ (rx : Option (String → Bool)) (q : String) (lim : Nat),
        search_files (refresh_index (some 0) true hasUpdate
          (some (.ok, entries)) prev).index rx q lim = [] := by
  have h : refresh_index (some 0) true hasUpdate (some (.ok, entries)) prev
      = ⟨[], [.progress scanStats, .cancelled], false, ⟨0, 0, "Scanning..."⟩⟩ := by
    cases entries <;> cases hasUpdate <;> rfl
  refine ⟨h, fun rx q lim => ?_⟩
  rw [h]
  simp [search_files]

/-- Counterexample to claim C1 as stated: with a committed one-file
snapshot, a rebuild cancelled before the build pass leaves the index empty
rather than "exactly as it was": the path `foo.py`, searchable before the
cancelled rebuild, is no longer found. -/
theorem refresh_cancelled_counterexample :
    (refresh_index (some 0) true false (some (.ok, [])) [("foo.py", ["foo.py"])]).index = []
    ∧ (refresh_index (some 0) true false (some (.ok, []))
        [("foo.py", ["foo.py"])]).index ≠ [("foo.py", ["foo.py"])]
    ∧ search_files [("foo.py", ["foo.py"])] none "foo.py" 3 = ["foo.py"]
    ∧ search_files (refresh_index (some 0) true false (some (.ok, []))
        [("foo.py", ["foo.py"])]).index none "foo.py" 3 = []
    ∧ (refresh_index (some 0) true false (some (.ok, []))
        [("foo.py", ["foo.py"])]).events
        = [.progress scanStats, .cancelled] := by
  refine ⟨by decide, by decide, by decide, by decide, by decide⟩

/-! ### Claim C3: terminal events per rebuild -/

/-- Test for the `completed`/`cancelled` terminal dicts. -/
def isTerminalCC : Event → Bool
  | .cancelled => true
  | .completed => true
  | _ => false

/-- Test for the `error` terminal dict. -/
def isErrorEv : Event → Bool
  | .error _ => true
  | _ => false

/-- Test for any of the three terminal dicts. -/
def isTerminalEvent : Event → Bool
  | .progress _ => false
  | _ => true

lemma filter_progress_CC (l : List Stats) :
    (l.map Event.progress).filter isTerminalCC = [] := by
  induction l with
  | nil => rfl
  | cons s rest ih => simp [isTerminalCC, ih]

lemma filter_progress_error (l : List Stats) :
    (l.map Event.progress).filter isErrorEv = [] := by
  induction l with
  | nil => rfl
  | cons s rest ih => simp [isErrorEv, ih]

lemma isTerminalCC_finishEvent (b : Bool) : isTerminalCC (finishEvent b) = true := by
  cases b <;> rfl

lemma isErrorEv_finishEvent (b : Bool) : isErrorEv (finishEvent b) = false := by
  cases b <;> rfl

lemma isTerminalCC_progress (s : Stats) : isTerminalCC (.progress s) = false := rfl

lemma isErrorEv_progress (s : Stats) : isErrorEv (.progress s) = false := rfl

lemma isTerminalCC_error (m : String) : isTerminalCC (.error m) = false := rfl

lemma isErrorEv_error (m : String) : isErrorEv (.error m) = true := rfl

/-- Claim C3 (amended): for every rebuild with a configured root and an
installed progress callback, exactly one `completed`-or-`cancelled` event
is delivered, and at most one `error` event; in the error case the source
delivers **both** an `error` event and then a `completed`/`cancelled`
event from its `finally` clause, so "exactly one terminal event overall"
fails (see the counterexample), while error-free rebuilds do deliver
exactly one terminal event. -/
theorem refresh_terminal_event_counts (cancelAt : Option Nat) (hasUpdate : Bool)
    (rst : DirStatus) (entries : List FSEntry) (prev : Index) :
    (((refresh_index cancelAt true hasUpdate (some (rst, entries)) prev).events.filter
        isTerminalCC).length = 1)
    ∧ (((refresh_index cancelAt true hasUpdate (some (rst, entries)) prev).events.filter
        isErrorEv).length ≤ 1) := by
  show (((refreshCounted cancelAt true hasUpdate rst entries prev
      (countDir cancelAt rst entries 0)).events.filter isTerminalCC).length = 1)
    ∧ (((refreshCounted cancelAt true hasUpdate rst entries prev
      (countDir cancelAt rst entries 0)).events.filter isErrorEv).length ≤ 1)
  obtain ⟨total, checks1, err⟩ := countDir cancelAt rst entries 0
  cases err with
  | some m =>
    simp [refreshCounted, preEvents, isTerminalCC_finishEvent, isErrorEv_finishEvent,
      isTerminalCC_progress, isErrorEv_progress, isTerminalCC_error, isErrorEv_error]
  | none =>
    show (((refreshBuilt cancelAt true hasUpdate
        (buildPhase cancelAt rst entries total checks1 (cdirAfterCount true))).events.filter
          isTerminalCC).length = 1)
      ∧ (((refreshBuilt cancelAt true hasUpdate
        (buildPhase cancelAt rst entries total checks1 (cdirAfterCount true))).events.filter
          isErrorEv).length ≤ 1)
    obtain ⟨stB, berr⟩ := buildPhase cancelAt rst entries total checks1 (cdirAfterCount true)
    cases berr with
    | some m =>
      simp [refreshBuilt, preEvents, progressEvents, filter_progress_CC, filter_progress_error,
        isTerminalCC_finishEvent, isErrorEv_finishEvent, isTerminalCC_progress,
        isErrorEv_progress, isTerminalCC_error, isErrorEv_error, List.filter_append]
    | none =>
      simp [refreshBuilt, preEvents, progressEvents, filter_progress_CC, filter_progress_error,
        isTerminalCC_finishEvent, isErrorEv_finishEvent, isTerminalCC_progress,
        isErrorEv_progress, isTerminalCC_error, isErrorEv_error, List.filter_append]

/-- Counterexample to claim C3 as stated: when the root directory cannot
be scanned (here it raises a non-`PermissionError`), the rebuild delivers
an `error` event **and** a `completed` event — two terminal events, not
exactly one. -/
theorem refresh_terminal_event_counterexample :
    (refresh_index none true false (some (.broken "boom", [])) []).events
      = [.progress scanStats, .error "boom", .completed]
    ∧ ((refresh_index none true false (some (.broken "boom", [])) []).events.filter
        isTerminalEvent).length = 2 := by
  refine ⟨by decide, by decide⟩

/-! ### Claim C8: progress cadence of the build pass -/

mutual

/-- Size of one entry (for induction over the tree). -/
def entrySize : FSEntry → Nat
  | .file _ => 1
  | .dir _ _ entries => 1 + listSize entries

/-- Size of an entry list. -/
def listSize : List FSEntry → Nat
  | [] => 0
  | e :: rest => entrySize e + listSize rest

end

lemma entrySize_pos (e : FSEntry) : 1 ≤ entrySize e := by
  cases e with
  | file _ => exact le_refl 1
  | dir _ _ es => exact Nat.le_add_right 1 (listSize es)

/-- Invariant relating the build state before and after a fragment of the
build pass: the processed count is monotone, the report list only grows,
and every multiple of 50 crossed by the processed count was reported. -/
def BuildOk (st st' : BuildSt) : Prop :=
  st.stats.files_processed ≤ st'.stats.files_processed
  ∧ (∃ δ, st'.reports = st.reports ++ δ)
  ∧ ∀ m, m % 50 = 0 → st.stats.files_processed < m →
      m ≤ st'.stats.files_processed →
      ∃ s ∈ st'.reports, s.files_processed = m

lemma buildOk_refl (st : BuildSt) : BuildOk st st :=
  ⟨le_refl _, ⟨[], by simp⟩, fun _ _ h1 h2 => absurd (Nat.lt_of_lt_of_le h1 h2) (lt_irrefl _)⟩

lemma buildOk_trans {a b c : BuildSt} (h1 : BuildOk a b) (h2 : BuildOk b c) : BuildOk a c := by
  obtain ⟨m1, ⟨d1, r1⟩, k1⟩ := h1
  obtain ⟨m2, ⟨d2, r2⟩, k2⟩ := h2
  refine ⟨le_trans m1 m2, ⟨d1 ++ d2, by rw [r2, r1, List.append_assoc]⟩, ?_⟩
  intro m hm ha hc
  by_cases hmid : m ≤ b.stats.files_processed
  · obtain ⟨s, hs, hsp⟩ := k1 m hm ha hmid
    exact ⟨s, by rw [r2]; exact List.mem_append_left _ hs, hsp⟩
  · exact k2 m hm (by omega) hc

lemma buildOk_same_processed {st st' : BuildSt}
    (hs : st'.stats.files_processed = st.stats.files_processed)
    (hr : ∃ δ, st'.reports = st.reports ++ δ) : BuildOk st st' := by
  refine ⟨by rw [hs], hr, ?_⟩
  intro m hm h1 h2
  rw [hs] at h2
  omega

lemma buildOk_checks (st : BuildSt) (n : Nat) : BuildOk st { st with checks := n } :=
  buildOk_same_processed rfl ⟨[], by simp⟩

lemma buildOk_reportOn50 (st : BuildSt) : BuildOk st (reportOn50 st) := by
  unfold reportOn50
  split
  · exact buildOk_same_processed rfl ⟨_, rfl⟩
  · exact buildOk_refl st

lemma buildOk_setDir (relDir : String) (st : BuildSt) : BuildOk st (setDir relDir st) :=
  buildOk_same_processed rfl ⟨[], by simp [setDir]⟩

lemma buildOk_enterDir (relDir : String) (st : BuildSt) : BuildOk st (enterDir relDir st) :=
  buildOk_trans (buildOk_setDir relDir st) (buildOk_reportOn50 _)

lemma addFile_stats (relDir name : String) (st : BuildSt) :
    (addFile relDir name st).stats.files_processed = st.stats.files_processed + 1 := rfl

lemma addFile_reports (relDir name : String) (st : BuildSt) :
    (addFile relDir name st).reports = st.reports := rfl

lemma buildOk_processFile (relDir name : String) (st : BuildSt) :
    BuildOk st (processFile relDir name st) := by
  unfold processFile reportOn50
  rw [addFile_stats]
  by_cases h50 : (st.stats.files_processed + 1) % 50 = 0
  · have hb : ((st.stats.files_processed + 1) % 50 == 0) = true := by simp [h50]
    rw [hb, if_pos rfl]
    refine ⟨by rw [report]; rw [addFile_stats]; omega, ?_, ?_⟩
    · exact ⟨[(addFile relDir name st).stats], by rw [report, addFile_reports]⟩
    · intro m hm h1 h2
      rw [report] at h2 ⊢
      rw [addFile_stats] at h2
      have hme : m = st.stats.files_processed + 1 := by omega
      subst hme
      exact ⟨(addFile relDir name st).stats,
        List.mem_append_right _ (List.mem_singleton.mpr rfl), by rw [addFile_stats]⟩
  · have hb : ((st.stats.files_processed + 1) % 50 == 0) = false := by simp [h50]
    rw [hb]
    simp only [Bool.false_eq_true, if_false]
    refine ⟨by rw [addFile_stats]; omega, ⟨[], by rw [addFile_reports, List.append_nil]⟩, ?_⟩
    intro m hm h1 h2
    rw [addFile_stats] at h2
    have hme : m = st.stats.files_processed + 1 := by omega
    subst hme
    exact absurd hm h50

lemma build_ok_sized : ∀ n : Nat,
    (∀ (e : FSEntry) (cA : Option Nat) (relDir : String) (st : BuildSt),
      entrySize e ≤ n → BuildOk st (buildEntry cA relDir e st).1)
    ∧ (∀ (l : List FSEntry) (cA : Option Nat) (relDir : String) (st : BuildSt),
      listSize l ≤ n → BuildOk st (buildList cA relDir l st).1) := by
  intro n
  induction n with
  | zero =>
    constructor
    · intro e cA relDir st he
      exact absurd (le_trans (entrySize_pos e) he) (by omega)
    · intro l cA relDir st hl
      cases l with
      | nil => exact buildOk_refl st
      | cons e r =>
        exact absurd (le_trans (le_trans (entrySize_pos e)
          (Nat.le_add_right _ _)) hl) (by omega)
  | succ n ih =>
    have hentry : ∀ (e : FSEntry) (cA : Option Nat) (relDir : String) (st : BuildSt),
        entrySize e ≤ n + 1 → BuildOk st (buildEntry cA relDir e st).1 := by
      intro e cA relDir st he
      cases e with
      | file name =>
        show BuildOk st (if extOk name then (processFile relDir name st, none)
          else (st, none)).1
        split
        · exact buildOk_processFile relDir name st
        · exact buildOk_refl st
      | dir name dst dents =>
        show BuildOk st (if ignored_dirs.contains name then (st, none) else _).1
        split
        · exact buildOk_refl st
        · have hd : listSize dents ≤ n := by
            have : entrySize (.dir name dst dents) = 1 + listSize dents := rfl
            omega
          cases dst with
          | ok =>
            exact buildOk_trans (buildOk_enterDir _ st)
              (ih.2 dents cA (joinRel relDir name) (enterDir (joinRel relDir name) st) hd)
          | permDenied => exact buildOk_enterDir _ st
          | broken m => exact buildOk_enterDir _ st
    refine ⟨hentry, ?_⟩
    intro l cA relDir st hl
    cases l with
    | nil => exact buildOk_refl st
    | cons e r =>
      have he : entrySize e ≤ n + 1 := by
        have : listSize (e :: r) = entrySize e + listSize r := rfl
        omega
      have hr : listSize r ≤ n := by
        have h1 := entrySize_pos e
        have : listSize (e :: r) = entrySize e + listSize r := rfl
        omega
      show BuildOk st (buildList cA relDir (e :: r) st).1
      rw [buildList]
      dsimp only
      split
      · exact buildOk_checks st _
      · split
        · exact buildOk_trans (buildOk_checks st _) (ih.2 r cA relDir _ hr)
        · split
          · next heq =>
            exact buildOk_trans (buildOk_checks st _)
              (by rw [← heq.symm] at *; exact hentry e cA relDir _ he)
          · exact buildOk_trans (buildOk_checks st _)
              (buildOk_trans (hentry e cA relDir _ he) (ih.2 r cA relDir _ hr))

lemma buildList_ok (cA : Option Nat) (relDir : String) (l : List FSEntry) (st : BuildSt) :
    BuildOk st (buildList cA relDir l st).1 :=
  (build_ok_sized (listSize l)).2 l cA relDir st (le_refl _)

lemma buildRoot_ok (cA : Option Nat) (rst : DirStatus) (entries : List FSEntry)
    (st : BuildSt) : BuildOk st (buildRoot cA rst entries st).1 := by
  unfold buildRoot
  cases rst with
  | ok => exact buildOk_trans (buildOk_enterDir _ st) (buildList_ok cA "." entries _)
  | permDenied => exact buildOk_enterDir _ st
  | broken m => exact buildOk_enterDir _ st

/-- Claim C8 (amended): during a rebuild with a progress callback, the
callback is invoked whenever the processed-file count reaches a multiple
of 50: for every such multiple below the final count, some delivered
progress snapshot carries exactly that count.  (The claim's
directory-boundary half fails: a directory transition triggers a callback
only when the current count is a multiple of 50; see the
counterexample.) -/
theorem refresh_progress_every_50 (cancelAt : Option Nat) (hasUpdate : Bool)
    (rst : DirStatus) (entries : List FSEntry) (prev : Index) (m : Nat)
    (hm : m % 50 = 0) (hpos : 0 < m)
    (hle : m ≤ (refresh_index cancelAt true hasUpdate
      (some (rst, entries)) prev).finalStats.files_processed) :
    ∃ s : Stats, Event.progress s ∈ (refresh_index cancelAt true hasUpdate
        (some (rst, entries)) prev).events ∧ s.files_processed = m := by
  have e0 : refresh_index cancelAt true hasUpdate (some (rst, entries)) prev
      = refreshCounted cancelAt true hasUpdate rst entries prev
          (countDir cancelAt rst entries 0) := rfl
  rw [e0] at hle ⊢
  rcases hcd : countDir cancelAt rst entries 0 with ⟨total, checks1, err⟩
  rw [hcd] at hle
  cases err with
  | some me =>
    simp [refreshCounted] at hle
    omega
  | none =>
    simp only [refreshCounted] at hle ⊢
    rcases hbp : buildPhase cancelAt rst entries total checks1 (cdirAfterCount true)
      with ⟨stB, berr⟩
    rw [hbp] at hle
    unfold buildPhase at hbp
    dsimp only at hbp
    have hOk : BuildOk ⟨[], ⟨0, total, cdirAfterCount true⟩,
        (flagRead cancelAt checks1).2, []⟩ stB := by
      split at hbp
      · rw [Prod.mk.injEq] at hbp
        rw [← hbp.1]
        exact buildOk_refl _
      · have h1 := congrArg Prod.fst hbp
        dsimp only at h1
        rw [← h1]
        exact buildRoot_ok _ _ _ _
    have hstats : (refreshBuilt cancelAt true hasUpdate (stB, berr)).finalStats = stB.stats := by
      cases berr <;> rfl
    rw [hstats] at hle
    obtain ⟨s, hs, hsp⟩ := hOk.2.2 m hm (by simpa using hpos) hle
    refine ⟨s, ?_, hsp⟩
    have hmem : Event.progress s ∈ progressEvents true stB.reports :=
      List.mem_map.mpr ⟨s, hs, rfl⟩
    cases berr with
    | some me =>
      show Event.progress s ∈ preEvents true ++ progressEvents true stB.reports ++ _
      exact List.mem_append_left _ (List.mem_append_right _ hmem)
    | none =>
      show Event.progress s ∈ preEvents true ++ progressEvents true stB.reports ++ _
      exact List.mem_append_left _ (List.mem_append_right _ hmem)

lemma reportOn50_processed (st : BuildSt) :
    (reportOn50 st).stats.files_processed = st.stats.files_processed := by
  unfold reportOn50
  split <;> rfl

lemma countList_replicate (n : Nat) : ∀ checks : Nat,
    countList none (List.replicate n (FSEntry.file "a.py")) checks
      = (n, checks + n, none) := by
  induction n with
  | zero => intro checks; simp [countList]
  | succ n ih =>
    intro checks
    rw [List.replicate_succ]
    have h1 : skipDot (FSEntry.file "a.py").name = false := by decide
    have h2 : extOk "a.py" = true := by decide
    simp only [countList, flagRead, cancelFlag, h1, Bool.false_eq_true, if_false, countEntry,
      h2, if_true, ih (checks + 1)]
    have e1 : 1 + n = n + 1 := by omega
    have e2 : checks + 1 + n = checks + (n + 1) := by omega
    rw [e1, e2]

lemma buildList_replicate_processed (n : Nat) : ∀ st : BuildSt,
    (buildList none "." (List.replicate n (FSEntry.file "a.py")) st).1.stats.files_processed
      = st.stats.files_processed + n := by
  induction n with
  | zero => intro st; simp [buildList]
  | succ n ih =>
    intro st
    rw [List.replicate_succ]
    have h1 : skipDot (FSEntry.file "a.py").name = false := by decide
    have h2 : extOk "a.py" = true := by decide
    simp only [buildList, flagRead, cancelFlag, h1, Bool.false_eq_true, if_false, buildEntry,
      h2, if_true, processFile, ih]
    rw [reportOn50_processed, addFile_stats]
    show st.stats.files_processed + 1 + n = st.stats.files_processed + (n + 1)
    omega

lemma refreshBuilt_finalStats (cancelAt : Option Nat) (hasProgress hasUpdate : Bool)
    (pr : BuildSt × Option String) :
    (refreshBuilt cancelAt hasProgress hasUpdate pr).finalStats = pr.1.stats := by
  rcases pr with ⟨stB, berr⟩
  cases berr <;> rfl

lemma refresh_replicate50_processed :
    (refresh_index none true false
      (some (.ok, List.replicate 50 (FSEntry.file "a.py"))) []).finalStats.files_processed
      = 50 := by
  have hc : countDir none .ok (List.replicate 50 (FSEntry.file "a.py")) 0
      = (50, 50, none) := by
    have h0 := countList_replicate 50 0
    simpa using h0
  have e0 : refresh_index none true false
      (some (.ok, List.replicate 50 (FSEntry.file "a.py"))) []
      = refreshCounted none true false .ok (List.replicate 50 (FSEntry.file "a.py")) []
          (countDir none .ok (List.replicate 50 (FSEntry.file "a.py")) 0) := rfl
  rw [e0, hc]
  have e1 : refreshCounted none true false .ok (List.replicate 50 (FSEntry.file "a.py")) []
        (50, 50, none)
      = refreshBuilt none true false
          (buildPhase none .ok (List.replicate 50 (FSEntry.file "a.py")) 50 50
            (cdirAfterCount true)) := rfl
  rw [e1, refreshBuilt_finalStats]
  have hflag : cancelFlag none 50 = false := rfl
  simp only [buildPhase, flagRead, hflag, Bool.false_eq_true, if_false, buildRoot]
  rw [buildList_replicate_processed]
  show 0 + 50 = 50
  rfl

/-- Witness for `refresh_progress_every_50`: a flat tree of 50 files named
`a.py`; the 50th processed file is reported with count 50. -/
theorem refresh_progress_every_50_witness :
    (50 : Nat) % 50 = 0 ∧ (0 : Nat) < 50
    ∧ 50 ≤ (refresh_index none true false
        (some (.ok, List.replicate 50 (FSEntry.file "a.py"))) []).finalStats.files_processed
    ∧ ∃ s : Stats, Event.progress s ∈ (refresh_index none true false
        (some (.ok, List.replicate 50 (FSEntry.file "a.py"))) []).events
        ∧ s.files_processed = 50 :=
  ⟨by decide, by decide, le_of_eq refresh_replicate50_processed.symm,
    refresh_progress_every_50 none false .ok (List.replicate 50 (FSEntry.file "a.py")) [] 50
      (by decide) (by decide) (le_of_eq refresh_replicate50_processed.symm)⟩

/-- Tree with a file at the root followed by a subdirectory `d`. -/
def c8tree : List FSEntry := [.file "a.py", .dir "d" .ok [.file "b.py"]]

/-- Counterexample to claim C8 as stated: rebuilding `c8tree` enters
directory `d` (the final stats still carry `current_dir = "d"`, and the
file inside `d` was processed), yet no progress callback is delivered at
that directory transition — no delivered snapshot mentions `d` — because
the processed count was 1, not a multiple of 50, when `d` was entered. -/
theorem refresh_progress_dir_boundary_counterexample :
    (refresh_index none true false (some (.ok, c8tree)) []).events
      = [.progress scanStats, .progress ⟨0, 2, "."⟩, .completed]
    ∧ (refresh_index none true false (some (.ok, c8tree)) []).finalStats
      = ⟨2, 2, "d"⟩
    ∧ ((refresh_index none true false (some (.ok, c8tree)) []).events.filter
        (fun e => match e with | .progress s => s.current_dir == "d" | _ => false)) = [] := by
  refine ⟨by decide, by decide, by decide⟩


/-! ## Part 2: `jcontext/content_processor.py` (`ContentProcessor`)

The indexer collaborator is modelled by its observable behaviour on this
path: a configured root (`self.file_indexer.root_path`) and a mapping from
relative path to file content (`get_file_content`, which returns `None`
both when no root is configured and when the file cannot be read). -/

/-- The `FileIndexer` state observed by `ContentProcessor`. -/
structure CPIndexer where
  root : Option String
  files : List (String × String)

/-- Association-list lookup (used for dicts read by this module). -/
def lookupStr : List (String × String) → String → Option String
  | [], _ => none
  | (k, v) :: rest, key => if k == key then some v else lookupStr rest key

/-- Source: `FileIndexer.get_file_content`: `None` without a root path or
when the file does not exist / cannot be read, else its text. -/
def get_file_content (idx : CPIndexer) (file_path : String) : Option String :=
  match idx.root with
  | none => none
  | some _ => lookupStr idx.files file_path

/-- Source: `language_map` in `FileIndexer.get_file_language`. -/
def language_map : List (String × String) :=
  [(".py", "python"), (".js", "javascript"), (".ts", "typescript"), (".jsx", "jsx"),
   (".tsx", "tsx"), (".java", "java"), (".cpp", "cpp"), (".c", "c"), (".h", "c"),
   (".cs", "csharp"), (".php", "php"), (".rb", "ruby"), (".go", "go"), (".rs", "rust"),
   (".swift", "swift"), (".kt", "kotlin"), (".scala", "scala"), (".html", "html"),
   (".css", "css"), (".scss", "scss"), (".less", "less"), (".xml", "xml"),
   (".json", "json"), (".yaml", "yaml"), (".yml", "yaml"), (".md", "markdown"),
   (".sql", "sql"), (".sh", "bash"), (".bat", "batch"), (".ps1", "powershell"),
   (".r", "r"), (".m", "matlab")]

/-- Source: `FileIndexer.get_file_language`: the `language_map` entry of the
lower-cased extension, with fallback `text`. -/
def get_file_language (file_path : String) : String :=
  match lookupStr language_map (toLowerS (splitextExt file_path)) with
  | some lang => lang
  | none => "text"

/-! ### The file-reference scanner

`extract_file_references` runs `re.findall` with the pattern
`(?:[^\s@]+/)*[^\s@/]+\.[a-zA-Z0-9]+`.  The scanner below reproduces the
backtracking engine's behaviour for this fixed pattern: a match lives
inside a maximal run of non-whitespace, non-`@` characters; the engine
tries to end the `(?:[^\s@]+/)*` star at each `/` of the run from rightmost
to leftmost (a single iteration whose `[^\s@]+` covers everything before
that `/`; the slash at index 0 is unreachable because `[^\s@]+` is
nonempty), then with zero iterations; after the chosen point, `[^\s@/]+`
runs up to the next `/`, and backtracking picks the rightmost `.` of that
segment with at least one `[a-zA-Z0-9]` after it (and at least one segment
character before it), the match ending after the maximal alphanumeric run.
On failure `findall` advances one character; on success it continues after
the match. -/

/-- Character class `[^\s@]` of the reference pattern. -/
def isTokChar (c : Char) : Bool := !(isPyWs c) && c != '@'

/-- Character class `[a-zA-Z0-9]` of the reference pattern. -/
def isAlnumA (c : Char) : Bool :=
  ('a' ≤ c && c ≤ 'z') || ('A' ≤ c && c ≤ 'Z') || ('0' ≤ c && c ≤ '9')

/-- Positions of `c` in `l`, in descending order. -/
def positionsDesc (c : Char) (l : List Char) : List Nat :=
  ((l.enum.filter (fun p => p.2 == c)).map (·.1)).reverse

/-- Match length of `[^\s@/]+\.[a-zA-Z0-9]+` against the segment `seg`
(the run part up to the next `/`): the rightmost dot at index ≥ 1 followed
by an alphanumeric wins, and the match extends over the maximal
alphanumeric run after it. -/
def tryExtSeg (seg : List Char) : Option Nat :=
  ((positionsDesc '.' seg).filter (fun l => decide (1 ≤ l))).findSome? (fun l =>
    match seg.drop (l + 1) with
    | c :: _ =>
      if isAlnumA c then some (l + 1 + ((seg.drop (l + 1)).takeWhile isAlnumA).length)
      else none
    | [] => none)

/-- Match length of the whole reference pattern at the start of `s`, if
any. -/
def refMatchLen (s : List Char) : Option Nat :=
  let run := s.takeWhile isTokChar
  (((positionsDesc '/' run).filter (fun p => decide (1 ≤ p))).map (· + 1) ++ [0]).findSome?
    (fun q => (tryExtSeg ((run.drop q).takeWhile (fun c => c != '/'))).map (q + ·))

/-- The `re.findall` scan: try a match at each position, emit it and
continue after it, else advance one character. -/
def findTokensF : Nat → List Char → List (List Char)
  | 0, _ => []
  | _ + 1, [] => []
  | fuel + 1, c :: rest =>
    match refMatchLen (c :: rest) with
    | some n => (c :: rest).take n :: findTokensF fuel ((c :: rest).drop n)
    | none => findTokensF fuel rest

/-- All matches of the file-reference pattern in `text`. -/
def findTokens (text : String) : List String :=
  (findTokensF text.data.length text.data).map List.asString

/-- Source: `ContentProcessor.extract_file_references`: every pattern
match that resolves via `get_file_content`. -/
def extract_file_references (idx : CPIndexer) (text : String) : List String :=
  (findTokens text).filter (fun m => (get_file_content idx m).isSome)

/-! ### Rendering (`process_content_for_copy`) -/

/-- One stored edit: the dict
`{'language': ..., 'content': ..., 'original_content': ...}`. -/
structure EditData where
  language : String
  content : String
  original_content : String
deriving DecidableEq, Repr

/-- Association-list lookup in the edit map. -/
def lookupEdit : List (String × EditData) → String → Option EditData
  | [], _ => none
  | (k, v) :: rest, key => if k == key then some v else lookupEdit rest key

/-- The rendered block
`f"```{language}\n# {file_path}\n{content}\n```"`. -/
def code_block (language file_path content : String) : String :=
  "```" ++ language ++ "\n# " ++ file_path ++ "\n" ++ content ++ "\n```"

/-- Python `str.replace`: replace every (non-overlapping, left-to-right)
occurrence of `p` by `r`.  Fuel-driven; the wrapper passes the text length,
which suffices because every step consumes at least one character (the
needles used here are pattern matches, hence nonempty). -/
def replaceAllF : Nat → List Char → List Char → List Char → List Char
  | 0, _, _, s => s
  | _ + 1, _, _, [] => []
  | fuel + 1, p, r, c :: rest =>
    if !p.isEmpty && leadsWith p (c :: rest) then
      r ++ replaceAllF fuel p r ((c :: rest).drop p.length)
    else c :: replaceAllF fuel p r rest

/-- Python `s.replace(p, r)` on character lists. -/
def replaceAll (p r s : List Char) : List Char := replaceAllF s.length p r s

/-- Python `s.replace(p, r)` on strings. -/
def replaceAllS (s p r : String) : String := (replaceAll p.data r.data s.data).asString

/-- Source: `ContentProcessor.process_content_for_copy(text,
code_block_edits)`: with no root path the text is returned unchanged;
otherwise each extracted reference is replaced (all occurrences) by its
rendered block, preferring the stored edit over live file content. -/
def process_content_for_copy (idx : CPIndexer) (text : String)
    (code_block_edits : List (String × EditData)) : String :=
  match idx.root with
  | none => text
  | some _ =>
    (extract_file_references idx text).foldl
      (fun processed file_path =>
        match lookupEdit code_block_edits file_path with
        | some ed =>
          replaceAllS processed file_path (code_block ed.language file_path ed.content)
        | none =>
          match get_file_content idx file_path with
          | some content =>
            replaceAllS processed file_path
              (code_block (get_file_language file_path) file_path content)
          | none => processed)
      text

/-! ### Unrendering (`extract_file_paths_from_rendered`,
`convert_rendered_to_raw`, `preserve_code_block_edits`)

The block pattern is `\x60\x60\x60(\w*)\n# ([^\n]+)\n(.*?)\x60\x60\x60` with
`re.DOTALL`: a fence, a maximal word run that must be followed by a
newline, the literal `# `, a nonempty path up to the next newline, and a
minimal body up to the next fence. -/

/-- Drop the literal `pre` from the front of `s`, if it is a prefix. -/
def dropPre : List Char → List Char → Option (List Char)
  | [], s => some s
  | _ :: _, [] => none
  | p :: ps, c :: cs => if p == c then dropPre ps cs else none

/-- Character class `\w` (ASCII). -/
def isWordChar (c : Char) : Bool := isAlnumA c || c == '_'

/-- Split `s` at the first occurrence of the fence `\x60\x60\x60`:
`(before, after-the-fence)`. -/
def takeUntilFence : List Char → Option (List Char × List Char)
  | [] => none
  | c :: rest =>
    if leadsWith "```".data (c :: rest) then some ([], (c :: rest).drop 3)
    else match takeUntilFence rest with
      | some (b, a) => some (c :: b, a)
      | none => none

/-- One attempt to match the block pattern at the start of `s`: the raw
capture groups `(language, file_path, content)` and the remainder after
the closing fence. -/
def tryBlock (s : List Char) : Option ((List Char × List Char × List Char) × List Char) :=
  match dropPre "```".data s with
  | none => none
  | some r1 =>
    match r1.span isWordChar with
    | (lang, r2) =>
      match r2 with
      | '\n' :: r3 =>
        match r3 with
        | '#' :: ' ' :: r4 =>
          match r4.span (fun c => c != '\n') with
          | (path, r5) =>
            if path.isEmpty then none
            else match r5 with
              | '\n' :: r6 =>
                match takeUntilFence r6 with
                | some (body, rem) => some ((lang, path, body), rem)
                | none => none
              | _ => none
        | _ => none
      | _ => none

/-- The `re.findall` scan for the block pattern (fuel-driven). -/
def extractLoopF : Nat → List Char → List (List Char × List Char × List Char)
  | 0, _ => []
  | _ + 1, [] => []
  | fuel + 1, c :: rest =>
    match tryBlock (c :: rest) with
    | some (groups, rem) => groups :: extractLoopF fuel rem
    | none => extractLoopF fuel rest

/-- Source: `ContentProcessor.extract_file_paths_from_rendered`: the list
of `(file_path.strip(), language.strip(), content.strip())` tuples for
every recognized block, in order. -/
def extract_file_paths_from_rendered (rendered_text : String) :
    List (String × String × String) :=
  (extractLoopF rendered_text.data.length rendered_text.data).map
    (fun g => ((pyStripL g.2.1).asString, (pyStripL g.1).asString, (pyStripL g.2.2).asString))

/-- One `re.sub` pass of `convert_rendered_to_raw`: every match of
`escape(f"\x60\x60\x60{language}\n# {file_path}\n") .*? \x60\x60\x60` is replaced
by the file path (fuel-driven). -/
def subBlockF : Nat → List Char → List Char → List Char → List Char
  | 0, _, _, s => s
  | _ + 1, _, _, [] => []
  | fuel + 1, header, pathR, c :: rest =>
    if leadsWith header (c :: rest) then
      match takeUntilFence ((c :: rest).drop header.length) with
      | some (_, rem) => pathR ++ subBlockF fuel header pathR rem
      | none => c :: subBlockF fuel header pathR rest
    else c :: subBlockF fuel header pathR rest

/-- The header of a rendered block, as used by the `re.sub` pattern. -/
def blockHeader (language file_path : String) : List Char :=
  ("```" ++ language ++ "\n# " ++ file_path ++ "\n").data

/-- Source: `ContentProcessor.convert_rendered_to_raw`: empty input maps
to `""`; otherwise every recognized block is collapsed to its bare file
path via one `re.sub` per extracted tuple.  (The unused
`original_raw_text` parameter of the source is omitted.) -/
def convert_rendered_to_raw (rendered_text : String) : String :=
  if rendered_text == "" then ""
  else
    (extract_file_paths_from_rendered rendered_text).foldl
      (fun raw fd =>
        (subBlockF raw.data.length (blockHeader fd.2.1 fd.1) fd.1.data raw.data).asString)
      rendered_text

/-- Python dict assignment `edits[file_path] = ...` on an
insertion-ordered association list. -/
def editsInsert (edits : List (String × EditData)) (key : String) (v : EditData) :
    List (String × EditData) :=
  match edits with
  | [] => [(key, v)]
  | (k, w) :: rest =>
    if k == key then (k, v) :: rest else (k, w) :: editsInsert rest key v

/-- Source: `ContentProcessor.preserve_code_block_edits`: for every
recognized block whose true content is truthy (non-`None`, nonempty) and
whose stripped body differs from the stripped true content, record
`{language, content, original_content}` under the path. -/
def preserve_code_block_edits (idx : CPIndexer) (rendered_text : String) :
    List (String × EditData) :=
  (extract_file_paths_from_rendered rendered_text).foldl
    (fun edits fd =>
      match get_file_content idx fd.1 with
      | some oc =>
        if oc != "" && pyStrip fd.2.2 != pyStrip oc then
          editsInsert edits fd.1 ⟨fd.2.1, fd.2.2, oc⟩
        else edits
      | none => edits)
    []

/-! ### Claim C9: no configured root means no rendering -/

/-- Claim C9: with no root path configured, `process_content_for_copy`
returns the text unchanged for every text and edit map (and reads no file:
the result is the input itself). -/
theorem process_content_no_root (files : List (String × String)) (text : String)
    (code_block_edits : List (String × EditData)) :
    process_content_for_copy ⟨none, files⟩ text code_block_edits = text := rfl

/-! ### Claim C2, counterexample: a file whose content contains the fence -/

/-- Counterexample to claim C2 as stated: for the text `a.py` over a root
where `a.py` exists with content containing the fence delimiter, the
detected references are exactly `[a.py]` (so no detected token is a proper
substring of another and every referenced file exists), yet un-rendering
the rendered text yields `a.py\n\x60\x60\x60`, not the original text. -/
theorem render_roundtrip_counterexample :
    extract_file_references ⟨some "/r", [("a.py", "```")]⟩ "a.py" = ["a.py"]
    ∧ get_file_content ⟨some "/r", [("a.py", "```")]⟩ "a.py" = some "```"
    ∧ convert_rendered_to_raw
        (process_content_for_copy ⟨some "/r", [("a.py", "```")]⟩ "a.py" [])
        = "a.py\n```"
    ∧ convert_rendered_to_raw
        (process_content_for_copy ⟨some "/r", [("a.py", "```")]⟩ "a.py" [])
        ≠ "a.py" := by
  refine ⟨by decide, by decide, by decide, by decide⟩

/-! ### Claim C5, counterexample: an empty file is never recorded -/

/-- Counterexample to claim C5 as stated: the rendered block for `a.py`
has an edited body whose stripped form (`edited`) differs from the
stripped true file content (the empty string), yet no edit record is
produced, because `preserve_code_block_edits` guards on the truthiness of
the original content and the empty string is falsy. -/
theorem preserve_edits_counterexample :
    extract_file_paths_from_rendered "```python\n# a.py\nedited\n```"
      = [("a.py", "python", "edited")]
    ∧ get_file_content ⟨some "/r", [("a.py", "")]⟩ "a.py" = some ""
    ∧ pyStrip "edited" ≠ pyStrip ""
    ∧ preserve_code_block_edits ⟨some "/r", [("a.py", "")]⟩
        "```python\n# a.py\nedited\n```" = [] := by
  refine ⟨by decide, by decide, by decide, by decide⟩

/-! ## Toolkit for the structured round-trip theorems (claims C2 and C5)

The lemmas below analyse the fuel-driven scanners of the content
processor on texts of a known shape: a needle that occurs nowhere, a
clean region followed by a literal match, and so on. -/

/-- The fence delimiter as an explicit character list. -/
lemma fence_data : "```".data = ['`', '`', '`'] := rfl

/-- A word character (`\w`) is never Python whitespace. -/
lemma wordChar_not_ws {c : Char} (h : isWordChar c = true) : isPyWs c = false := by
  cases hw : isPyWs c
  · rfl
  · exfalso
    have hmem : c = ' ' ∨ c = '\t' ∨ c = '\n' ∨ c = '\r' ∨ c = '\x0b' ∨ c = '\x0c' := by
      simpa [isPyWs, or_assoc] using hw
    rcases hmem with h1 | h1 | h1 | h1 | h1 | h1 <;> subst h1 <;> revert h <;> decide

/-- A word character is never a backtick. -/
lemma wordChar_not_bt {c : Char} (h : isWordChar c = true) : c ≠ '`' := by
  intro h1; subst h1; revert h; decide

/-- A word character is never a dot. -/
lemma wordChar_not_dot {c : Char} (h : isWordChar c = true) : c ≠ '.' := by
  intro h1; subst h1; revert h; decide

/-- A word character is never a newline. -/
lemma wordChar_not_nl {c : Char} (h : isWordChar c = true) : c ≠ '\n' := by
  intro h1; subst h1; revert h; decide

/-- A token character (`[^\s@]`) is never Python whitespace. -/
lemma tokChar_not_ws {c : Char} (h : isTokChar c = true) : isPyWs c = false := by
  simp only [isTokChar, Bool.and_eq_true, Bool.not_eq_true'] at h
  exact h.1

/-- `leadsWith` tests literal list-prefixhood. -/
lemma leadsWith_iff (p s : List Char) : leadsWith p s = true ↔ ∃ t, s = p ++ t := by
  induction p generalizing s with
  | nil => simp [leadsWith]
  | cons a ps ih =>
    cases s with
    | nil =>
      simp only [leadsWith, List.cons_append]
      constructor
      · intro h; cases h
      · rintro ⟨t, h⟩; cases h
    | cons c cs =>
      simp only [leadsWith, Bool.and_eq_true, beq_iff_eq, ih, List.cons_append]
      constructor
      · rintro ⟨h1, t, h2⟩; subst h1; subst h2; exact ⟨t, rfl⟩
      · rintro ⟨t, h⟩; injection h with h1 h2; exact ⟨h1.symm, t, h2⟩

/-- A literal always leads its own extensions. -/
lemma leadsWith_append_self (p t : List Char) : leadsWith p (p ++ t) = true :=
  (leadsWith_iff p (p ++ t)).mpr ⟨t, rfl⟩

/-- Cancelling a common prefix under `leadsWith`. -/
lemma leadsWith_append_cancel (a x y : List Char) :
    leadsWith (a ++ x) (a ++ y) = leadsWith x y := by
  induction a with
  | nil => rfl
  | cons c a' ih => simp [leadsWith, ih]

/-- A needle whose characters all satisfy `Q` cannot lead a text headed
by a character violating `Q`. -/
lemma leadsWith_false_classChar {p : List Char} {c : Char} (s : List Char) (Q : Char → Bool)
    (hp : ∀ x ∈ p, Q x = true) (hc : Q c = false) (hne : p ≠ []) :
    leadsWith p (c :: s) = false := by
  cases p with
  | nil => exact absurd rfl hne
  | cons d p' =>
    have hd : Q d = true := hp d (by simp)
    have hdc : d ≠ c := by
      intro h; subst h; rw [hd] at hc; cases hc
    simp [leadsWith, hdc]

/-- A whitespace-free needle containing a dot cannot lead `# ...`. -/
lemma leadsWith_false_hash {p : List Char} (s : List Char)
    (hws : ∀ x ∈ p, isPyWs x = false) (hdot : '.' ∈ p) :
    leadsWith p ('#' :: ' ' :: s) = false := by
  cases p with
  | nil => cases hdot
  | cons d p' =>
    cases p' with
    | nil =>
      have hd : '.' = d := by simpa using hdot
      subst hd
      simp [leadsWith]
    | cons e p'' =>
      by_cases hd : d = '#'
      · subst hd
        have he : e ≠ ' ' := by
          intro h; subst h
          have := hws ' ' (by simp)
          revert this; decide
        simp [leadsWith, he]
      · simp [leadsWith, hd]

/-- `p` occurs as a contiguous sublist of `s`. -/
def occursL (p s : List Char) : Prop := ∃ x y, s = x ++ p ++ y

/-- `occursB` decides `occursL`. -/
lemma occursB_iff (p s : List Char) : occursB p s = true ↔ occursL p s := by
  induction s with
  | nil =>
    simp only [occursB, occursL]
    constructor
    · intro h
      rcases (leadsWith_iff _ _).mp h with ⟨t, ht⟩
      exact ⟨[], t, by simpa using ht⟩
    · rintro ⟨x, y, h⟩
      rcases List.append_eq_nil.mp h.symm with ⟨h1, hy⟩
      rcases List.append_eq_nil.mp h1 with ⟨hx, hp⟩
      apply (leadsWith_iff _ _).mpr
      exact ⟨[], by simp [hp]⟩
  | cons c cs ih =>
    simp only [occursB, Bool.or_eq_true, leadsWith_iff, ih, occursL]
    constructor
    · rintro (⟨t, ht⟩ | ⟨x, y, hxy⟩)
      · exact ⟨[], t, by simpa using ht⟩
      · exact ⟨c :: x, y, by simp [hxy]⟩
    · rintro ⟨x, y, hxy⟩
      cases x with
      | nil => exact Or.inl ⟨y, by simpa using hxy⟩
      | cons d x' =>
        refine Or.inr ⟨x', y, ?_⟩
        have hre : (d :: x') ++ p ++ y = d :: (x' ++ p ++ y) := by simp
        rw [hre] at hxy
        exact ((List.cons.injEq _ _ _ _).mp hxy).2

/-- Occurrence in a cons: either the needle leads here or it occurs in
the tail. -/
lemma occursL_cons_iff (p : List Char) (c : Char) (s : List Char) :
    occursL p (c :: s) ↔ (∃ t, c :: s = p ++ t) ∨ occursL p s := by
  rw [← occursB_iff, occursB, Bool.or_eq_true, leadsWith_iff, occursB_iff]

/-- Occurrence is preserved by extending the text on the right. -/
lemma occursL_append_right {p a : List Char} (b : List Char) (h : occursL p a) :
    occursL p (a ++ b) := by
  rcases h with ⟨x, y, rfl⟩
  exact ⟨x, y ++ b, by simp⟩

/-- Occurrence is preserved by extending the text on the left. -/
lemma occursL_append_left {p b : List Char} (a : List Char) (h : occursL p b) :
    occursL p (a ++ b) := by
  rcases h with ⟨x, y, rfl⟩
  exact ⟨a ++ x, y, by simp⟩

/-- Occurrence is preserved under a cons. -/
lemma occursL_cons {p s : List Char} (c : Char) (h : occursL p s) :
    occursL p (c :: s) :=
  (occursL_cons_iff p c s).mpr (Or.inr h)

/-- Every character of an occurring needle is a character of the text. -/
lemma mem_of_occursL {p s : List Char} (h : occursL p s) {x : Char} (hx : x ∈ p) :
    x ∈ s := by
  rcases h with ⟨a, b, rfl⟩
  simp [hx]

/-- Nothing nonempty occurs in the empty text. -/
lemma occursL_nil {p : List Char} (h : occursL p []) : p = [] := by
  rcases h with ⟨x, y, hxy⟩
  rcases List.append_eq_nil.mp hxy.symm with ⟨h1, hy⟩
  exact (List.append_eq_nil.mp h1).2

/-- A needle with a character the text lacks does not occur. -/
lemma notOccurs_missing {p s : List Char} (x : Char) (hx : x ∈ p) (hs : x ∉ s) :
    ¬ occursL p s := fun h => hs (mem_of_occursL h hx)

/-- If the needle does not lead here and does not occur in the tail, it
does not occur at all. -/
lemma notOccurs_cons {p : List Char} {c : Char} {s : List Char}
    (hlead : leadsWith p (c :: s) = false) (hs : ¬ occursL p s) :
    ¬ occursL p (c :: s) := by
  intro h
  rcases (occursL_cons_iff p c s).mp h with ⟨t, ht⟩ | h2
  · rw [(leadsWith_iff p (c :: s)).mpr ⟨t, ht⟩] at hlead
    cases hlead
  · exact hs h2

/-- A needle leading a split text either fits inside the left part or
covers the junction character. -/
lemma leads_split_cases {p a : List Char} {c : Char} {b t : List Char}
    (h : a ++ c :: b = p ++ t) : (∃ u, a = p ++ u) ∨ c ∈ p := by
  by_cases hle : p.length ≤ a.length
  · left
    have h1 := congrArg (List.take p.length) h
    rw [List.take_append_eq_append_take, List.take_append_eq_append_take] at h1
    rw [Nat.sub_eq_zero_of_le hle, List.take_zero, List.append_nil, List.take_length] at h1
    rw [Nat.sub_self, List.take_zero, List.append_nil] at h1
    refine ⟨a.drop p.length, ?_⟩
    conv_lhs => rw [← List.take_append_drop p.length a]
    rw [h1]
  · right
    push_neg at hle
    have h1 := congrArg (fun l => l[a.length]?) h
    simp only at h1
    rw [List.getElem?_append_right (le_refl a.length)] at h1
    rw [Nat.sub_self] at h1
    rw [List.getElem?_append] at h1
    rw [if_pos hle] at h1
    simp only [List.getElem?_cons_zero] at h1
    exact List.getElem?_mem h1.symm

/-- Junction lemma: a needle missing the junction character occurs in a
split text only if it occurs on one side. -/
lemma notOccurs_append {p : List Char} {c : Char} {b : List Char}
    (hc : c ∉ p) (hb : ¬ occursL p (c :: b)) :
    ∀ a : List Char, ¬ occursL p a → ¬ occursL p (a ++ c :: b) := by
  intro a
  induction a with
  | nil => intro _; simpa using hb
  | cons d a' ih =>
    intro ha h
    have ha' : ¬ occursL p a' := fun h2 => ha (occursL_cons d h2)
    rcases (occursL_cons_iff p d (a' ++ c :: b)).mp (by simpa using h) with ⟨t, ht⟩ | h2
    · have ht' : (d :: a') ++ c :: b = p ++ t := by simpa using ht
      rcases leads_split_cases ht' with ⟨u, hu⟩ | hcp
      · exact ha ⟨[], u, by simpa using hu⟩
      · exact hc hcp
    · exact ih ha' h2

/-- A needle headed by a backtick does not occur in a text whose left
part is backtick-free unless it occurs in the right part. -/
lemma notOccurs_append_clean {p : List Char} {hd : Char} {pt b : List Char}
    (hp : p = hd :: pt) (hb : ¬ occursL p b) :
    ∀ a : List Char, hd ∉ a → ¬ occursL p (a ++ b) := by
  intro a
  induction a with
  | nil => intro _; simpa using hb
  | cons d a' ih =>
    intro ha h
    rcases (occursL_cons_iff p d (a' ++ b)).mp (by simpa using h) with ⟨t, ht⟩ | h2
    · subst hp
      injection ht with h1 h2
      exact ha (by simp [h1])
    · exact ih (fun hm => ha (by simp [hm])) h2

/-- Aligning two newline-terminated, newline-free fields under
`leadsWith`: the fields agree. -/
lemma nlfree_align : ∀ {a b : List Char} {u v : List Char},
    ('\n' ∉ a) → ('\n' ∉ b) →
    leadsWith (a ++ '\n' :: u) (b ++ '\n' :: v) = true →
    a = b ∧ leadsWith u v = true := by
  intro a
  induction a with
  | nil =>
    intro b u v _ hb h
    cases b with
    | nil =>
      refine ⟨rfl, ?_⟩
      simpa [leadsWith] using h
    | cons d b' =>
      exfalso
      simp only [List.nil_append, List.cons_append, leadsWith, Bool.and_eq_true,
        beq_iff_eq] at h
      exact hb (by simp [h.1.symm])
  | cons c a' ih =>
    intro b u v ha hb h
    cases b with
    | nil =>
      exfalso
      simp only [List.cons_append, List.nil_append, leadsWith, Bool.and_eq_true,
        beq_iff_eq] at h
      exact ha (by simp [h.1])
    | cons d b' =>
      simp only [List.cons_append, leadsWith, Bool.and_eq_true, beq_iff_eq] at h
      obtain ⟨hcd, hrest⟩ := h
      have ha' : '\n' ∉ a' := fun hm => ha (by simp [hm])
      have hb' : '\n' ∉ b' := fun hm => hb (by simp [hm])
      obtain ⟨heq, hlead⟩ := ih ha' hb' hrest
      exact ⟨by rw [hcd, heq], hlead⟩

/-! ### Python `strip` facts -/

/-- `asString` and `data` are mutually inverse (list side). -/
lemma asString_data (l : List Char) : (l.asString).data = l := rfl

/-- `asString` and `data` are mutually inverse (string side). -/
lemma data_asString (s : String) : s.data.asString = s := rfl

/-- `dropWhile` is the identity on lists with no satisfying character. -/
lemma dropWhile_all_false {Q : Char → Bool} : ∀ l : List Char,
    (∀ c ∈ l, Q c = false) → l.dropWhile Q = l := by
  intro l h
  cases l with
  | nil => rfl
  | cons c rest =>
    have := h c (by simp)
    simp [List.dropWhile_cons, this]

/-- `dropWhile` is the identity when the head does not satisfy `Q`. -/
lemma dropWhile_head_id {Q : Char → Bool} : ∀ {l : List Char},
    (∀ c, l.head? = some c → Q c = false) → l.dropWhile Q = l := by
  intro l h
  cases l with
  | nil => rfl
  | cons c rest =>
    have := h c rfl
    simp [List.dropWhile_cons, this]

/-- The head of a `dropWhile` result does not satisfy `Q`. -/
lemma head_dropWhile_false {Q : Char → Bool} : ∀ l : List Char, ∀ c,
    (l.dropWhile Q).head? = some c → Q c = false := by
  intro l
  induction l with
  | nil => intro c h; cases h
  | cons d rest ih =>
    intro c h
    rw [List.dropWhile_cons] at h
    by_cases hd : Q d = true
    · rw [if_pos hd] at h; exact ih c h
    · rw [if_neg hd] at h
      have hdc := Option.some.inj h
      subst hdc
      exact Bool.eq_false_iff.mpr hd

/-- `dropWhile` preserves the last element when the result is nonempty. -/
lemma getLast?_dropWhile {Q : Char → Bool} : ∀ l : List Char,
    l.dropWhile Q ≠ [] → (l.dropWhile Q).getLast? = l.getLast? := by
  intro l
  induction l with
  | nil => intro h; exact absurd rfl h
  | cons c rest ih =>
    intro h
    by_cases hc : Q c = true
    · rw [List.dropWhile_cons, if_pos hc] at h ⊢
      cases rest with
      | nil => simp at h
      | cons d rest2 => rw [ih h, List.getLast?_cons_cons]
    · rw [List.dropWhile_cons, if_neg hc]

/-- Stripping a list with non-whitespace head and last is the identity. -/
lemma pyStripL_stable {l : List Char}
    (h1 : ∀ c, l.head? = some c → isPyWs c = false)
    (h2 : ∀ c, l.getLast? = some c → isPyWs c = false) : pyStripL l = l := by
  unfold pyStripL
  rw [dropWhile_head_id h1]
  rw [dropWhile_head_id (fun c hc => h2 c (by rwa [List.head?_reverse] at hc))]
  exact List.reverse_reverse l

/-- Stripping a fully non-whitespace list is the identity. -/
lemma pyStripL_no_ws {l : List Char} (h : ∀ c ∈ l, isPyWs c = false) :
    pyStripL l = l :=
  pyStripL_stable (fun c hc => h c (by cases l with
      | nil => cases hc
      | cons d rest => exact (Option.some.inj hc) ▸ List.mem_cons_self d rest))
    (fun c hc => h c (List.mem_of_mem_getLast? hc))

/-- Python `strip` is idempotent (list side). -/
lemma pyStripL_idem (l : List Char) : pyStripL (pyStripL l) = pyStripL l := by
  apply pyStripL_stable
  · intro c hc
    unfold pyStripL at hc
    rw [List.head?_reverse] at hc
    by_cases hy : ((l.dropWhile isPyWs).reverse.dropWhile isPyWs) = []
    · rw [hy] at hc; cases hc
    · rw [getLast?_dropWhile _ hy, List.getLast?_reverse] at hc
      exact head_dropWhile_false l c hc
  · intro c hc
    unfold pyStripL at hc
    rw [List.getLast?_reverse] at hc
    exact head_dropWhile_false _ c hc

/-- Python `strip` is idempotent (string side). -/
lemma pyStrip_idem (s : String) : pyStrip (pyStrip s) = pyStrip s := by
  unfold pyStrip
  rw [asString_data, pyStripL_idem]

/-- Python `strip` of a non-whitespace string is the identity. -/
lemma pyStrip_no_ws {s : String} (h : ∀ c ∈ s.data, isPyWs c = false) :
    pyStrip s = s := by
  unfold pyStrip
  rw [pyStripL_no_ws h]
  exact data_asString s

/-! ### Scanner lemmas for the block pattern -/

/-- `dropPre` succeeds exactly on literal prefixes. -/
lemma dropPre_some : ∀ {p s r : List Char}, dropPre p s = some r ↔ s = p ++ r := by
  intro p
  induction p with
  | nil =>
    intro s r
    simp [dropPre]
  | cons a ps ih =>
    intro s r
    cases s with
    | nil =>
      simp [dropPre]
    | cons c cs =>
      simp only [dropPre, List.cons_append]
      by_cases h : a = c
      · subst h
        rw [if_pos (by simp), ih]
        constructor
        · intro h2; rw [h2]
        · intro h2; exact ((List.cons.injEq _ _ _ _).mp h2).2
      · rw [if_neg (by simpa using h)]
        constructor
        · intro h2; cases h2
        · intro h2; exact absurd ((List.cons.injEq _ _ _ _).mp h2).1.symm h

/-- `takeWhile` over a satisfying region stops at the first failing
character. -/
lemma takeWhile_middle {Q : Char → Bool} : ∀ (a : List Char) {c : Char} (b : List Char),
    (∀ x ∈ a, Q x = true) → Q c = false →
    (a ++ c :: b).takeWhile Q = a := by
  intro a
  induction a with
  | nil =>
    intro c b _ hc
    simp [List.takeWhile_cons, hc]
  | cons d a' ih =>
    intro c b ha hc
    have hd : Q d = true := ha d (by simp)
    rw [List.cons_append, List.takeWhile_cons, if_pos hd,
      ih b (fun x hx => ha x (by simp [hx])) hc]

/-- `dropWhile` over a satisfying region stops at the first failing
character. -/
lemma dropWhile_middle {Q : Char → Bool} : ∀ (a : List Char) {c : Char} (b : List Char),
    (∀ x ∈ a, Q x = true) → Q c = false →
    (a ++ c :: b).dropWhile Q = c :: b := by
  intro a
  induction a with
  | nil =>
    intro c b _ hc
    simp [List.dropWhile_cons, hc]
  | cons d a' ih =>
    intro c b ha hc
    have hd : Q d = true := ha d (by simp)
    rw [List.cons_append, List.dropWhile_cons, if_pos hd,
      ih b (fun x hx => ha x (by simp [hx])) hc]

/-- `takeUntilFence` on a backtick-free region followed by a literal
fence splits there. -/
lemma takeUntilFence_clean : ∀ (b : List Char), (∀ c ∈ b, c ≠ '`') → ∀ r,
    takeUntilFence (b ++ '`' :: '`' :: '`' :: r) = some (b, r) := by
  intro b hb
  induction b with
  | nil =>
    intro r
    rw [List.nil_append, takeUntilFence]
    have hl : leadsWith "```".data ('`' :: '`' :: '`' :: r) = true :=
      leadsWith_append_self "```".data r
    rw [if_pos hl]
    rfl
  | cons c b' ih =>
    intro r
    have hc : c ≠ '`' := hb c (by simp)
    rw [List.cons_append, takeUntilFence]
    have hlead : leadsWith "```".data (c :: (b' ++ '`' :: '`' :: '`' :: r)) = false := by
      rw [fence_data]
      simp [leadsWith, Ne.symm hc]
    rw [if_neg (by simp [hlead])]
    rw [ih (fun x hx => hb x (by simp [hx])) r]

/-- A successful `takeUntilFence` decomposes its input. -/
lemma takeUntilFence_decomp : ∀ {s b a : List Char},
    takeUntilFence s = some (b, a) → s = b ++ '`' :: '`' :: '`' :: a := by
  intro s
  induction s with
  | nil => intro b a h; cases h
  | cons c rest ih =>
    intro b a h
    rw [takeUntilFence] at h
    by_cases hl : leadsWith "```".data (c :: rest) = true
    · rw [if_pos hl] at h
      simp only [Option.some.injEq, Prod.mk.injEq] at h
      obtain ⟨hb, ha⟩ := h
      subst hb
      rcases (leadsWith_iff _ _).mp hl with ⟨t, ht⟩
      rw [fence_data] at ht
      rw [ht] at ha
      have hdt : List.drop 3 (['`', '`', '`'] ++ t) = t := rfl
      rw [hdt] at ha
      subst ha
      simp [ht]
    · rw [if_neg hl] at h
      cases hf : takeUntilFence rest with
      | none => rw [hf] at h; cases h
      | some pr =>
        obtain ⟨b', a'⟩ := pr
        rw [hf] at h
        simp only [Option.some.injEq, Prod.mk.injEq] at h
        obtain ⟨hb, ha⟩ := h
        subst hb
        subst ha
        have hr := ih hf
        simp [hr]

/-- `tryBlock` fails on a text not starting with a backtick. -/
lemma tryBlock_none_head {c : Char} (rest : List Char) (hc : c ≠ '`') :
    tryBlock (c :: rest) = none := by
  unfold tryBlock
  have hdp : dropPre "```".data (c :: rest) = none := by
    rw [fence_data]
    simp [dropPre, Ne.symm hc]
  rw [hdp]

/-- The character-list form of a rendered block without its trailing
context: fence, language, newline, `# `, path, newline, body region,
closing fence. -/
def blockL (lang path body : List Char) : List Char :=
  '`' :: '`' :: '`' :: (lang ++ '\n' :: '#' :: ' ' :: (path ++ '\n' :: (body ++ ['`', '`', '`'])))

/-- Appending context to a block normalizes to a right-nested form. -/
lemma blockL_append (lang path body rest : List Char) :
    blockL lang path body ++ rest =
      '`' :: '`' :: '`' ::
        (lang ++ '\n' :: '#' :: ' ' :: (path ++ '\n' :: (body ++ '`' :: '`' :: '`' :: rest))) := by
  simp [blockL]

/-- `code_block` renders exactly a `blockL` whose body region is the
content followed by a newline. -/
lemma code_block_data (language file_path content : String) :
    (code_block language file_path content).data =
      blockL language.data file_path.data (content.data ++ ['\n']) := by
  simp only [code_block, String.data_append, blockL]
  simp

/-- `tryBlock` recognizes a literal block and returns its groups and the
trailing context. -/
lemma tryBlock_block (lang path body rest : List Char)
    (hlang : ∀ c ∈ lang, isWordChar c = true)
    (hpath : path ≠ []) (hpathnl : ∀ c ∈ path, c ≠ '\n')
    (hbody : ∀ c ∈ body, c ≠ '`') :
    tryBlock (blockL lang path body ++ rest) = some ((lang, path, body), rest) := by
  rw [blockL_append]
  unfold tryBlock
  have hdp : dropPre "```".data
      ('`' :: '`' :: '`' ::
        (lang ++ '\n' :: '#' :: ' ' :: (path ++ '\n' :: (body ++ '`' :: '`' :: '`' :: rest)))) =
      some (lang ++ '\n' :: '#' :: ' ' :: (path ++ '\n' :: (body ++ '`' :: '`' :: '`' :: rest))) := by
    apply dropPre_some.mpr
    rw [fence_data]
    rfl
  simp only [hdp]
  have hsp1 : List.span isWordChar
      (lang ++ '\n' :: '#' :: ' ' :: (path ++ '\n' :: (body ++ '`' :: '`' :: '`' :: rest))) =
      (lang, '\n' :: '#' :: ' ' :: (path ++ '\n' :: (body ++ '`' :: '`' :: '`' :: rest))) := by
    rw [List.span_eq_take_drop, takeWhile_middle lang _ hlang (by decide),
      dropWhile_middle lang _ hlang (by decide)]
  simp only [hsp1]
  have hpw : ∀ x ∈ path, (x != '\n') = true := by
    intro x hx
    simpa using hpathnl x hx
  have hsp2 : List.span (fun c => c != '\n') (path ++ '\n' :: (body ++ '`' :: '`' :: '`' :: rest)) =
      (path, '\n' :: (body ++ '`' :: '`' :: '`' :: rest)) := by
    rw [List.span_eq_take_drop, takeWhile_middle path _ hpw (by decide),
      dropWhile_middle path _ hpw (by decide)]
  simp only [hsp2]
  have hpe : path.isEmpty = false := by
    cases path with
    | nil => exact absurd rfl hpath
    | cons c cs => rfl
  simp only [hpe, Bool.false_eq_true, if_false]
  simp only [takeUntilFence_clean body hbody rest]

/-! ### Fuel-driven loop lemmas -/

/-- The extraction loop yields nothing on an empty text. -/
lemma extractLoopF_nil : ∀ f, extractLoopF f [] = [] := by
  intro f; cases f <;> rfl

/-- The extraction loop skips a backtick-free region. -/
lemma extractLoopF_skip : ∀ (a : List Char), ('`' ∉ a) → ∀ (fuel : Nat) (s : List Char),
    a.length ≤ fuel →
    extractLoopF fuel (a ++ s) = extractLoopF (fuel - a.length) s := by
  intro a
  induction a with
  | nil =>
    intro _ fuel s _
    simp
  | cons c a' ih =>
    intro ha fuel s hfuel
    have hc : c ≠ '`' := fun h => ha (by simp [h])
    cases fuel with
    | zero => simp at hfuel
    | succ f =>
      rw [List.cons_append, extractLoopF]
      rw [tryBlock_none_head _ hc]
      rw [ih (fun h => ha (by simp [h])) f s (by simpa using hfuel)]
      simp [Nat.succ_sub_succ]

/-- The extraction loop yields nothing on a backtick-free text. -/
lemma extractLoopF_clean (a : List Char) (ha : '`' ∉ a) (fuel : Nat)
    (hfuel : a.length ≤ fuel) : extractLoopF fuel a = [] := by
  have h := extractLoopF_skip a ha fuel [] hfuel
  rw [List.append_nil] at h
  rw [h, extractLoopF_nil]

/-- The extraction loop recognizes a leading block and continues after
its closing fence. -/
lemma extractLoopF_block (lang path body rest : List Char) (f : Nat)
    (hlang : ∀ c ∈ lang, isWordChar c = true)
    (hpath : path ≠ []) (hpathnl : ∀ c ∈ path, c ≠ '\n')
    (hbody : ∀ c ∈ body, c ≠ '`') :
    extractLoopF (f + 1) (blockL lang path body ++ rest) =
      (lang, path, body) :: extractLoopF f rest := by
  rw [blockL_append, extractLoopF]
  have hb := tryBlock_block lang path body rest hlang hpath hpathnl hbody
  rw [blockL_append] at hb
  rw [hb]

/-- The substitution loop leaves an empty text empty. -/
lemma subBlockF_nil : ∀ f header q, subBlockF f header q [] = [] := by
  intro f header q; cases f <;> rfl

/-- The substitution loop is the identity when the header occurs
nowhere. -/
lemma subBlockF_not_occurs (header q : List Char) : ∀ (s : List Char) (fuel : Nat),
    ¬ occursL header s → subBlockF fuel header q s = s := by
  intro s
  induction s with
  | nil => intro fuel _; exact subBlockF_nil fuel header q
  | cons c rest ih =>
    intro fuel hocc
    cases fuel with
    | zero => rfl
    | succ f =>
      rw [subBlockF]
      have hlead : leadsWith header (c :: rest) = false := by
        cases hq : leadsWith header (c :: rest)
        · rfl
        · exfalso
          rcases (leadsWith_iff _ _).mp hq with ⟨t, ht⟩
          exact hocc ⟨[], t, by simpa using ht⟩
      rw [if_neg (by simp [hlead])]
      rw [ih f (fun h => hocc (occursL_cons c h))]

/-- The substitution loop copies a region free of the header's head
character. -/
lemma subBlockF_skip (header q : List Char) {hd : Char} {ht : List Char}
    (hh : header = hd :: ht) : ∀ (a : List Char), hd ∉ a → ∀ (fuel : Nat) (s : List Char),
    a.length ≤ fuel →
    subBlockF fuel header q (a ++ s) = a ++ subBlockF (fuel - a.length) header q s := by
  intro a
  induction a with
  | nil =>
    intro _ fuel s _
    simp
  | cons c a' ih =>
    intro ha fuel s hfuel
    have hc : hd ≠ c := fun h => ha (by simp [h])
    cases fuel with
    | zero => simp at hfuel
    | succ f =>
      rw [List.cons_append, subBlockF]
      have hlead : leadsWith header (c :: (a' ++ s)) = false := by
        rw [hh]
        simp [leadsWith, hc]
      rw [if_neg (by simp [hlead])]
      rw [ih (fun h => ha (by simp [h])) f s (by simpa using hfuel)]
      simp

/-- The substitution loop replaces a leading header-plus-body block by
the replacement and continues after the closing fence. -/
lemma subBlockF_match (f : Nat) (header q body rest : List Char)
    (hheader : header ≠ [])
    (hbody : ∀ c ∈ body, c ≠ '`') :
    subBlockF (f + 1) header q (header ++ (body ++ '`' :: '`' :: '`' :: rest)) =
      q ++ subBlockF f header q rest := by
  cases header with
  | nil => exact absurd rfl hheader
  | cons hc htl =>
    rw [List.cons_append, subBlockF]
    have hlead : leadsWith (hc :: htl) (hc :: (htl ++ (body ++ '`' :: '`' :: '`' :: rest))) = true := by
      have := leadsWith_append_self (hc :: htl) (body ++ '`' :: '`' :: '`' :: rest)
      simpa using this
    rw [if_pos hlead]
    have hdrop : List.drop (hc :: htl).length (hc :: (htl ++ (body ++ '`' :: '`' :: '`' :: rest))) =
        body ++ '`' :: '`' :: '`' :: rest := by
      have := List.drop_left (hc :: htl) (body ++ '`' :: '`' :: '`' :: rest)
      simpa using this
    rw [hdrop]
    rw [takeUntilFence_clean body hbody rest]

/-- `replaceAllF` leaves an empty text empty. -/
lemma replaceAllF_nil : ∀ f p r, replaceAllF f p r [] = [] := by
  intro f p r; cases f <;> rfl

/-- `replaceAllF` is the identity when the needle occurs nowhere. -/
lemma replaceAllF_not_occurs (p r : List Char) : ∀ (s : List Char) (fuel : Nat),
    ¬ occursL p s → replaceAllF fuel p r s = s := by
  intro s
  induction s with
  | nil => intro fuel _; exact replaceAllF_nil fuel p r
  | cons c rest ih =>
    intro fuel hocc
    cases fuel with
    | zero => rfl
    | succ f =>
      rw [replaceAllF]
      have hlead : leadsWith p (c :: rest) = false := by
        cases hq : leadsWith p (c :: rest)
        · rfl
        · exfalso
          rcases (leadsWith_iff _ _).mp hq with ⟨t, ht⟩
          exact hocc ⟨[], t, by simpa using ht⟩
      rw [if_neg (by simp [hlead])]
      rw [ih f (fun h => hocc (occursL_cons c h))]

/-- A text splits at the needle either inside its left region or across
its end. -/
lemma leads_total_cases {p A R t : List Char} (h : A ++ R = p ++ t) :
    (∃ u, A = p ++ u) ∨ (∃ u, p = A ++ u) := by
  by_cases hle : p.length ≤ A.length
  · left
    have h1 := congrArg (List.take p.length) h
    rw [List.take_append_eq_append_take, List.take_append_eq_append_take] at h1
    rw [Nat.sub_eq_zero_of_le hle, List.take_zero, List.append_nil, List.take_length] at h1
    rw [Nat.sub_self, List.take_zero, List.append_nil] at h1
    refine ⟨A.drop p.length, ?_⟩
    conv_lhs => rw [← List.take_append_drop p.length A]
    rw [h1]
  · right
    push_neg at hle
    have hle' : A.length ≤ p.length := Nat.le_of_lt hle
    have h1 := congrArg (List.take A.length) h
    rw [List.take_append_eq_append_take, List.take_append_eq_append_take] at h1
    rw [Nat.sub_self, List.take_zero, List.append_nil, List.take_length] at h1
    rw [Nat.sub_eq_zero_of_le hle', List.take_zero, List.append_nil] at h1
    refine ⟨p.drop A.length, ?_⟩
    conv_lhs => rw [← List.take_append_drop A.length p]
    rw [← h1]

/-- One replacement step: a clean region, the needle, and an
occurrence-free remainder. -/
lemma replaceAllF_split (p r : List Char) (hp : p ≠ []) :
    ∀ (A : List Char) (fuel : Nat) (E : List Char),
    ¬ occursL p A →
    (∀ w, A.getLast? = some w → w ∉ p) →
    ¬ occursL p E →
    A.length + 1 ≤ fuel →
    replaceAllF fuel p r (A ++ p ++ E) = A ++ r ++ E := by
  intro A
  induction A with
  | nil =>
    intro fuel E _ _ hE hfuel
    cases fuel with
    | zero => simp at hfuel
    | succ f =>
      cases p with
      | nil => exact absurd rfl hp
      | cons pc pt =>
        rw [List.nil_append, List.nil_append, List.cons_append, replaceAllF]
        have hlead : leadsWith (pc :: pt) (pc :: (pt ++ E)) = true := by
          have := leadsWith_append_self (pc :: pt) E
          simpa using this
        rw [if_pos (by simp [hlead])]
        have hdrop : List.drop (pc :: pt).length (pc :: (pt ++ E)) = E := by
          have := List.drop_left (pc :: pt) E
          simpa using this
        rw [hdrop]
        rw [replaceAllF_not_occurs (pc :: pt) r E f hE]
  | cons d A' ih =>
    intro fuel E hA hlast hE hfuel
    cases fuel with
    | zero => simp at hfuel
    | succ f =>
      have hshape : (d :: A') ++ p ++ E = d :: (A' ++ p ++ E) := by simp
      rw [hshape, replaceAllF]
      have hlead : leadsWith p (d :: (A' ++ p ++ E)) = false := by
        cases hq : leadsWith p (d :: (A' ++ p ++ E))
        · rfl
        · exfalso
          rcases (leadsWith_iff _ _).mp hq with ⟨t, ht⟩
          have ht' : (d :: A') ++ (p ++ E) = p ++ t := by simpa using ht
          rcases leads_total_cases ht' with ⟨u, hu⟩ | ⟨u, hu⟩
          · exact hA ⟨[], u, by simpa using hu⟩
          · have hwl : (d :: A').getLast? = some ((d :: A').getLast (by simp)) :=
              List.getLast?_eq_getLast _ (by simp)
            have hwmem : (d :: A').getLast (by simp) ∈ d :: A' := List.getLast_mem _
            have hwp : (d :: A').getLast (by simp) ∈ p := by
              rw [hu]; exact List.mem_append_left u hwmem
            exact hlast _ hwl hwp
      have hcond : ¬ ((!p.isEmpty && leadsWith p (d :: (A' ++ p ++ E))) = true) := by
        rw [hlead, Bool.and_false]
        exact Bool.false_ne_true
      rw [if_neg hcond]
      have hA' : ¬ occursL p A' := fun h => hA (occursL_cons d h)
      have hlast' : ∀ w, A'.getLast? = some w → w ∉ p := by
        intro w hw
        apply hlast
        cases A' with
        | nil => cases hw
        | cons x xs => rw [List.getLast?_cons_cons]; exact hw
      rw [ih f E hA' hlast' hE (by simpa using hfuel)]
      simp

/-- `replaceAll` with a nowhere-occurring needle is the identity. -/
lemma replaceAll_not_occurs (p r s : List Char) (hocc : ¬ occursL p s) :
    replaceAll p r s = s :=
  replaceAllF_not_occurs p r s s.length hocc

/-- `replaceAll` on a single explicit occurrence. -/
lemma replaceAll_split (p r : List Char) (hp : p ≠ []) (A E : List Char)
    (hA : ¬ occursL p A) (hlast : ∀ w, A.getLast? = some w → w ∉ p)
    (hE : ¬ occursL p E) :
    replaceAll p r (A ++ p ++ E) = A ++ r ++ E := by
  apply replaceAllF_split p r hp A _ E hA hlast hE
  have hplen : 1 ≤ p.length := by
    cases p with
    | nil => exact absurd rfl hp
    | cons x xs => simp
  simp [List.length_append]
  omega

/-! ### Language-map facts -/

/-- A successful association-list lookup returns a stored value. -/
lemma lookupStr_mem : ∀ (m : List (String × String)) (k v : String),
    lookupStr m k = some v → v ∈ m.map Prod.snd := by
  intro m
  induction m with
  | nil => intro k v h; cases h
  | cons kv rest ih =>
    intro k v h
    obtain ⟨k1, v1⟩ := kv
    rw [lookupStr] at h
    by_cases hk : (k1 == k) = true
    · rw [if_pos hk] at h
      rw [List.map_cons]
      exact (Option.some.inj h) ▸ List.mem_cons_self _ _
    · rw [if_neg hk] at h
      rw [List.map_cons]
      exact List.mem_cons_of_mem _ (ih k v h)

/-- Every language name returned by `get_file_language` is a nonempty
word-character string. -/
lemma get_file_language_word (fp : String) :
    (∀ c ∈ (get_file_language fp).data, isWordChar c = true) ∧
      (get_file_language fp).data ≠ [] := by
  unfold get_file_language
  cases hl : lookupStr language_map (toLowerS (splitextExt fp)) with
  | none =>
    constructor
    · have hall : ∀ c ∈ "text".data, isWordChar c = true := by decide
      exact hall
    · decide
  | some lang =>
    have hmem := lookupStr_mem _ _ _ hl
    have hall : ∀ v ∈ language_map.map Prod.snd,
        (∀ c ∈ v.data, isWordChar c = true) ∧ v.data ≠ [] := by decide
    exact hall lang hmem

/-! ### A single rendered block between two clean regions (claim C5) -/

/-- A rendered text with exactly one fenced block: `body` is the raw
region between the header line and the closing fence. -/
def renderedOne (pre lang p body post : String) : String :=
  pre ++ "```" ++ lang ++ "\n# " ++ p ++ "\n" ++ body ++ "```" ++ post

/-- The character-list form of `renderedOne`. -/
lemma renderedOne_data (pre lang p body post : String) :
    (renderedOne pre lang p body post).data =
      pre.data ++ blockL lang.data p.data body.data ++ post.data := by
  simp only [renderedOne, String.data_append, blockL]
  simp

/-- The block-pattern scan of a `renderedOne` finds exactly its block. -/
lemma extract_renderedOne (pre lang p body post : String)
    (hpre : ∀ c ∈ pre.data, c ≠ '`')
    (hlang : ∀ c ∈ lang.data, isWordChar c = true)
    (hp : p.data ≠ []) (hpnl : ∀ c ∈ p.data, c ≠ '\n')
    (hbody : ∀ c ∈ body.data, c ≠ '`')
    (hpost : ∀ c ∈ post.data, c ≠ '`') :
    extract_file_paths_from_rendered (renderedOne pre lang p body post) =
      [(pyStrip p, pyStrip lang, pyStrip body)] := by
  unfold extract_file_paths_from_rendered
  have hdata : (renderedOne pre lang p body post).data =
      pre.data ++ (blockL lang.data p.data body.data ++ post.data) := by
    rw [renderedOne_data, List.append_assoc]
  rw [hdata]
  have hpre' : '`' ∉ pre.data := fun h => hpre '`' h rfl
  have hlenpre : pre.data.length ≤
      (pre.data ++ (blockL lang.data p.data body.data ++ post.data)).length := by
    rw [List.length_append]; omega
  rw [extractLoopF_skip pre.data hpre' _ _ hlenpre]
  have hrem : (pre.data ++ (blockL lang.data p.data body.data ++ post.data)).length -
      pre.data.length = (blockL lang.data p.data body.data ++ post.data).length := by
    rw [List.length_append]; omega
  rw [hrem]
  have hbpos : 1 ≤ (blockL lang.data p.data body.data).length := by
    simp [blockL]
  obtain ⟨f, hf⟩ : ∃ f, (blockL lang.data p.data body.data ++ post.data).length = f + 1 := by
    rw [List.length_append]
    exact ⟨(blockL lang.data p.data body.data).length + post.data.length - 1, by omega⟩
  have hflen : post.data.length ≤ f := by
    rw [List.length_append] at hf
    omega
  rw [hf]
  rw [extractLoopF_block lang.data p.data body.data post.data f hlang hp hpnl hbody]
  have hpost' : '`' ∉ post.data := fun h => hpost '`' h rfl
  rw [extractLoopF_clean post.data hpost' f hflen]
  rfl

/-- Lift a list identity to `asString`. -/
lemma asString_eq (l : List Char) (s : String) (h : l = s.data) : l.asString = s := by
  rw [h]; exact data_asString s

/-- The header recomputed by `convert_rendered_to_raw` in character-list
form. -/
lemma blockHeader_data (language file_path : String) :
    blockHeader language file_path =
      '`' :: '`' :: '`' :: (language.data ++ '\n' :: '#' :: ' ' :: (file_path.data ++ ['\n'])) := by
  simp [blockHeader, String.data_append]

/-- Collapsing a `renderedOne` yields the bare path between the clean
regions. -/
lemma convert_renderedOne (pre lang p body post : String)
    (hpre : ∀ c ∈ pre.data, c ≠ '`')
    (hlang : ∀ c ∈ lang.data, isWordChar c = true)
    (hp : p.data ≠ [])
    (hpws : ∀ c ∈ p.data, isPyWs c = false)
    (hbody : ∀ c ∈ body.data, c ≠ '`')
    (hpost : ∀ c ∈ post.data, c ≠ '`') :
    convert_rendered_to_raw (renderedOne pre lang p body post) = pre ++ p ++ post := by
  have hpnl : ∀ c ∈ p.data, c ≠ '\n' := by
    intro c hc h
    subst h
    have hx := hpws '\n' hc
    revert hx; decide
  unfold convert_rendered_to_raw
  have hnempty : renderedOne pre lang p body post ≠ "" := by
    intro h
    have hd := congrArg String.data h
    rw [renderedOne_data] at hd
    simp [blockL] at hd
  rw [if_neg (by simp [hnempty])]
  rw [extract_renderedOne pre lang p body post hpre hlang hp hpnl hbody hpost]
  have hps : pyStrip p = p := pyStrip_no_ws hpws
  have hls : pyStrip lang = lang :=
    pyStrip_no_ws (fun c hc => wordChar_not_ws (hlang c hc))
  rw [hps, hls]
  rw [List.foldl_cons, List.foldl_nil]
  have hH : blockHeader lang p =
      '`' :: '`' :: '`' :: (lang.data ++ '\n' :: '#' :: ' ' :: (p.data ++ ['\n'])) :=
    blockHeader_data lang p
  have hsplit : (renderedOne pre lang p body post).data =
      pre.data ++ (blockHeader lang p ++ (body.data ++ '`' :: '`' :: '`' :: post.data)) := by
    rw [renderedOne_data, hH]
    simp [blockL]
  rw [hsplit]
  have hpre' : '`' ∉ pre.data := fun h => hpre '`' h rfl
  rw [subBlockF_skip (blockHeader lang p) p.data hH pre.data hpre' _ _
    (by rw [List.length_append]; omega)]
  have hrem : (pre.data ++ (blockHeader lang p ++ (body.data ++ '`' :: '`' :: '`' :: post.data))).length -
      pre.data.length = (blockHeader lang p ++ (body.data ++ '`' :: '`' :: '`' :: post.data)).length := by
    rw [List.length_append]; omega
  rw [hrem]
  obtain ⟨f, hf⟩ : ∃ f,
      (blockHeader lang p ++ (body.data ++ '`' :: '`' :: '`' :: post.data)).length = f + 1 := by
    rw [hH]
    exact ⟨_, rfl⟩
  rw [hf]
  rw [subBlockF_match f (blockHeader lang p) p.data body.data post.data (by rw [hH]; simp) hbody]
  have hnoH : ¬ occursL (blockHeader lang p) post.data := by
    intro hocc
    have hbt : '`' ∈ blockHeader lang p := by rw [hH]; simp
    exact hpost '`' (mem_of_occursL hocc hbt) rfl
  rw [subBlockF_not_occurs (blockHeader lang p) p.data post.data f hnoH]
  apply asString_eq
  simp [String.data_append]

/-- Claim C5 (amended): for a rendered text consisting of one recognized
block between backtick-free regions, over a configured root where the
block's path resolves to a nonempty true content whose trimmed form
differs from the trimmed body, `preserve_code_block_edits` produces
exactly one edit record for that path, storing the trimmed body and the
true content, and `convert_rendered_to_raw` collapses the text to the
bare path — identically for the edited and the unedited body. -/
theorem preserve_edits_single_block
    (root : String) (files : List (String × String))
    (pre lang p body oc post : String)
    (hpre : ∀ c ∈ pre.data, c ≠ '`')
    (hpost : ∀ c ∈ post.data, c ≠ '`')
    (hbody : ∀ c ∈ body.data, c ≠ '`')
    (hlang : ∀ c ∈ lang.data, isWordChar c = true)
    (hp : p.data ≠ [])
    (hpws : ∀ c ∈ p.data, isPyWs c = false)
    (hoc : ∀ c ∈ oc.data, c ≠ '`')
    (hfile : get_file_content ⟨some root, files⟩ p = some oc)
    (hocne : oc ≠ "")
    (hdiff : pyStrip body ≠ pyStrip oc) :
    preserve_code_block_edits ⟨some root, files⟩ (renderedOne pre lang p body post) =
      [(p, ⟨pyStrip lang, pyStrip body, oc⟩)]
    ∧ convert_rendered_to_raw (renderedOne pre lang p body post) = pre ++ p ++ post
    ∧ convert_rendered_to_raw (renderedOne pre lang p body post) =
        convert_rendered_to_raw (renderedOne pre lang p (oc ++ "\n") post) := by
  have hpnl : ∀ c ∈ p.data, c ≠ '\n' := by
    intro c hc h
    subst h
    have hx := hpws '\n' hc
    revert hx; decide
  refine ⟨?_, ?_, ?_⟩
  · unfold preserve_code_block_edits
    rw [extract_renderedOne pre lang p body post hpre hlang hp hpnl hbody hpost]
    rw [pyStrip_no_ws hpws]
    rw [List.foldl_cons, List.foldl_nil]
    simp only [hfile]
    have h1 : (oc != "") = true := by simpa using hocne
    have h2 : (pyStrip (pyStrip body) != pyStrip oc) = true := by
      rw [pyStrip_idem]
      simpa using hdiff
    simp only [h1, h2, Bool.and_self, if_true]
    rfl
  · exact convert_renderedOne pre lang p body post hpre hlang hp hpws hbody hpost
  · rw [convert_renderedOne pre lang p body post hpre hlang hp hpws hbody hpost]
    have hocnl : ∀ c ∈ (oc ++ "\n").data, c ≠ '`' := by
      intro c hc
      rw [String.data_append] at hc
      rcases List.mem_append.mp hc with h | h
      · exact hoc c h
      · intro he
        subst he
        revert h; decide
    rw [convert_renderedOne pre lang p (oc ++ "\n") post hpre hlang hp hpws hocnl hpost]

/-- Concrete instance discharging the hypotheses of
`preserve_edits_single_block`. -/
theorem preserve_edits_single_block_witness :
    preserve_code_block_edits ⟨some "/r", [("a.py", "x=1")]⟩
        (renderedOne "see " "python" "a.py" "x=2\n" " end") =
      [("a.py", ⟨pyStrip "python", pyStrip "x=2\n", "x=1"⟩)]
    ∧ convert_rendered_to_raw (renderedOne "see " "python" "a.py" "x=2\n" " end") =
        "see " ++ "a.py" ++ " end"
    ∧ convert_rendered_to_raw (renderedOne "see " "python" "a.py" "x=2\n" " end") =
        convert_rendered_to_raw (renderedOne "see " "python" "a.py" ("x=1" ++ "\n") " end") :=
  preserve_edits_single_block "/r" [("a.py", "x=1")] "see " "python" "a.py" "x=2\n" "x=1" " end"
    (by decide) (by decide) (by decide) (by decide) (by decide) (by decide) (by decide)
    (by decide) (by decide) (by decide)

/-! ### Structured texts for the round-trip theorem (claim C2)

A raw text is a leading chunk followed by alternating reference tokens
and chunks; the rendered text replaces each reference by its block. -/

/-- The raw tail: each segment is a reference token followed by its
trailing chunk. -/
def rawTail : List (String × String) → List Char
  | [] => []
  | (p, c) :: rest => p.data ++ (c.data ++ rawTail rest)

/-- The rendered block substituted for reference `p` (no stored edit):
its language and live file content. -/
def blockFor (idx : CPIndexer) (p : String) : List Char :=
  (code_block (get_file_language p) p ((get_file_content idx p).getD "")).data

/-- The rendered tail: each reference replaced by its block. -/
def renTail (idx : CPIndexer) : List (String × String) → List Char
  | [] => []
  | (p, c) :: rest => blockFor idx p ++ (c.data ++ renTail idx rest)

/-- One step of the render fold of `process_content_for_copy`. -/
def renderStep (idx : CPIndexer) (code_block_edits : List (String × EditData))
    (processed : String) (file_path : String) : String :=
  match lookupEdit code_block_edits file_path with
  | some ed =>
    replaceAllS processed file_path (code_block ed.language file_path ed.content)
  | none =>
    match get_file_content idx file_path with
    | some content =>
      replaceAllS processed file_path
        (code_block (get_file_language file_path) file_path content)
    | none => processed

/-- `process_content_for_copy` is the fold of `renderStep` over the
extracted references. -/
lemma process_content_for_copy_eq (idx : CPIndexer) (text : String)
    (code_block_edits : List (String × EditData)) :
    process_content_for_copy idx text code_block_edits =
      match idx.root with
      | none => text
      | some _ =>
        (extract_file_references idx text).foldl (renderStep idx code_block_edits) text := rfl

/-- One step of the collapse fold of `convert_rendered_to_raw`. -/
def subStep (raw : String) (fd : String × String × String) : String :=
  (subBlockF raw.data.length (blockHeader fd.2.1 fd.1) fd.1.data raw.data).asString

/-- `convert_rendered_to_raw` is the fold of `subStep` over the
extracted tuples. -/
lemma convert_rendered_to_raw_eq (rendered_text : String) :
    convert_rendered_to_raw rendered_text =
      if rendered_text == "" then ""
      else (extract_file_paths_from_rendered rendered_text).foldl subStep rendered_text := rfl

/-- First character is Python whitespace. -/
def startsWS (s : String) : Bool :=
  match s.data with
  | [] => false
  | c :: _ => isPyWs c

/-- Last character is Python whitespace. -/
def endsWS (s : String) : Bool :=
  match s.data.getLast? with
  | none => false
  | some c => isPyWs c

/-- Executable hygiene check on a looked-up file content: present,
backtick-free, and containing no reference token. -/
def contentOkB (refs : List String) : Option String → Bool
  | none => false
  | some oc =>
    oc.data.all (fun c => c != '`') && refs.all (fun q => !(occursB q.data oc.data))

/-- A block splits as a header part plus body and closing fence. -/
lemma blockL_as_header (lang path body : List Char) :
    blockL lang path body =
      ('`' :: '`' :: '`' :: (lang ++ '\n' :: '#' :: ' ' :: (path ++ ['\n']))) ++
        (body ++ ['`', '`', '`']) := by
  simp [blockL]

/-- Length of a block. -/
lemma blockL_length (lang path body : List Char) :
    (blockL lang path body).length = lang.length + path.length + body.length + 10 := by
  simp [blockL, List.length_append]
  omega

/-- The empty string has no characters. -/
lemma empty_data : ("" : String).data = [] := rfl

/-- A whitespace character is not in a whitespace-free needle. -/
lemma ws_not_mem {q : List Char} (hqws : ∀ x ∈ q, isPyWs x = false) {w : Char}
    (hw : isPyWs w = true) : w ∉ q := by
  intro h
  rw [hqws w h] at hw
  cases hw

/-- A whitespace-free needle never leads a whitespace-headed text. -/
lemma leadsWith_false_ws {q : List Char} (hq : q ≠ [])
    (hqws : ∀ x ∈ q, isPyWs x = false) {w : Char} (hw : isPyWs w = true)
    (s : List Char) : leadsWith q (w :: s) = false := by
  apply leadsWith_false_classChar s (fun c => !(isPyWs c))
  · intro x hx; rw [hqws x hx]; rfl
  · rw [hw]; rfl
  · exact hq

/-- Cons with a whitespace head preserves occurrence-freedom of a
whitespace-free needle. -/
lemma notOccurs_cons_ws {q : List Char} (hq : q ≠ [])
    (hqws : ∀ x ∈ q, isPyWs x = false) {w : Char} (hw : isPyWs w = true)
    {s : List Char} (hs : ¬ occursL q s) : ¬ occursL q (w :: s) :=
  notOccurs_cons (leadsWith_false_ws hq hqws hw s) hs

/-- Destructor for `startsWS`. -/
lemma startsWS_data {s : String} (h : startsWS s = true) :
    ∃ w l, s.data = w :: l ∧ isPyWs w = true := by
  unfold startsWS at h
  cases hd : s.data with
  | nil => rw [hd] at h; exact Bool.noConfusion h
  | cons c l => rw [hd] at h; exact ⟨c, l, rfl, h⟩

/-- A `some` last element splits the list. -/
lemma getLast?_decomp : ∀ (l : List Char) (w : Char), l.getLast? = some w →
    ∃ l', l = l' ++ [w] := by
  intro l
  induction l with
  | nil => intro w h; cases h
  | cons c rest ih =>
    intro w h
    cases rest with
    | nil =>
      have h1 : some c = some w := by simpa using h
      exact ⟨[], by rw [Option.some.inj h1]; rfl⟩
    | cons d rest2 =>
      rw [List.getLast?_cons_cons] at h
      obtain ⟨l', hl⟩ := ih w h
      exact ⟨c :: l', by rw [List.cons_append, ← hl]⟩

/-- Destructor for `endsWS`. -/
lemma endsWS_data {s : String} (h : endsWS s = true) :
    ∃ w l, s.data = l ++ [w] ∧ isPyWs w = true := by
  unfold endsWS at h
  cases hd : s.data.getLast? with
  | none => rw [hd] at h; exact Bool.noConfusion h
  | some w =>
    rw [hd] at h
    obtain ⟨l', hl⟩ := getLast?_decomp s.data w hd
    exact ⟨w, l', hl, h⟩

/-- No whitespace-free token occurs in a raw tail whose chunks are
token-free and whitespace-bounded. -/
lemma notOccurs_rawTail (q : List Char) (hq : q ≠ [])
    (hqws : ∀ x ∈ q, isPyWs x = false) :
    ∀ segs : List (String × String),
    (∀ s ∈ segs, ¬ occursL q s.1.data) →
    (∀ s ∈ segs, ¬ occursL q s.2.data) →
    (∀ s ∈ segs.dropLast, startsWS s.2 = true ∧ endsWS s.2 = true) →
    (∀ s, segs.getLast? = some s → s.2 = "" ∨ startsWS s.2 = true) →
    ¬ occursL q (rawTail segs) := by
  intro segs
  induction segs with
  | nil =>
    intro _ _ _ _ h
    exact hq (occursL_nil h)
  | cons sc rest ih =>
    intro hp hc hinner hlast
    obtain ⟨p, c⟩ := sc
    rw [rawTail]
    cases hrest : rest with
    | nil =>
      subst hrest
      rcases hlast (p, c) (by simp) with hce | hws
      · have hce' : c = "" := hce
        have hsh : p.data ++ (c.data ++ rawTail []) = p.data := by
          have hcd : c.data = [] := by rw [hce']
          simp [hcd, rawTail]
        rw [hsh]
        exact hp (p, c) (by simp)
      · obtain ⟨w, l, hcd, hw⟩ := startsWS_data hws
        rw [hcd, List.cons_append]
        apply notOccurs_append (ws_not_mem hqws hw) ?_ p.data (hp (p, c) (by simp))
        apply notOccurs_cons_ws hq hqws hw
        intro hocc
        apply hc (p, c) (by simp)
        rw [hcd]
        apply occursL_cons w
        have hl : l ++ rawTail [] = l := by simp [rawTail]
        rw [hl] at hocc
        exact hocc
    | cons s2 r2 =>
      subst hrest
      have hcin := hinner (p, c) (List.mem_cons_self _ _)
      obtain ⟨hstart, hend⟩ := hcin
      obtain ⟨w1, l1, hcd1, hw1⟩ := startsWS_data hstart
      obtain ⟨w2, l2, hcd2, hw2⟩ := endsWS_data hend
      have hih : ¬ occursL q (rawTail (s2 :: r2)) := by
        apply ih (fun s hs => hp s (by simp [hs])) (fun s hs => hc s (by simp [hs]))
          (fun s hs => hinner s (List.mem_cons_of_mem _ hs))
          (fun s hs => hlast s (by rw [List.getLast?_cons_cons]; exact hs))
      have hX : ¬ occursL q (c.data ++ rawTail (s2 :: r2)) := by
        rw [hcd2]
        have hsh : (l2 ++ [w2]) ++ rawTail (s2 :: r2) = l2 ++ w2 :: rawTail (s2 :: r2) := by
          simp
        rw [hsh]
        apply notOccurs_append (ws_not_mem hqws hw2)
          (notOccurs_cons_ws hq hqws hw2 hih) l2
        intro hocc
        apply hc (p, c) (by simp)
        rw [hcd2]
        exact occursL_append_right [w2] hocc
      have hXtail : ¬ occursL q (l1 ++ rawTail (s2 :: r2)) := by
        intro hocc
        apply hX
        rw [hcd1, List.cons_append]
        exact occursL_cons w1 hocc
      rw [hcd1, List.cons_append]
      exact notOccurs_append (ws_not_mem hqws hw1)
        (notOccurs_cons_ws hq hqws hw1 hXtail) p.data (hp (p, c) (by simp))

/-- A backtick-free needle never leads a backtick-headed text. -/
lemma leadsWith_false_bt {q : List Char} (hq : q ≠ []) (hqbt : '`' ∉ q)
    (s : List Char) : leadsWith q ('`' :: s) = false := by
  apply leadsWith_false_classChar s (fun c => c != '`')
  · intro x hx
    simp only [bne_iff_ne, ne_eq]
    exact fun he => hqbt (he ▸ hx)
  · simp
  · exact hq

/-- A whitespace-free, backtick-free, dot-containing token does not
occur in a rendered block followed by a token-free context. -/
lemma notOccurs_blockL_ctx (q lang path body X : List Char)
    (hq : q ≠ []) (hqws : ∀ x ∈ q, isPyWs x = false) (hqbt : '`' ∉ q) (hqdot : '.' ∈ q)
    (hlang : '.' ∉ lang)
    (hpath : ¬ occursL q path) (hbody : ¬ occursL q body)
    (hX : ¬ occursL q X) :
    ¬ occursL q (blockL lang path body ++ X) := by
  rw [blockL_append]
  have h5 : ¬ occursL q ('`' :: '`' :: '`' :: X) :=
    notOccurs_cons (leadsWith_false_bt hq hqbt _)
      (notOccurs_cons (leadsWith_false_bt hq hqbt _)
        (notOccurs_cons (leadsWith_false_bt hq hqbt _) hX))
  have h4 : ¬ occursL q (body ++ '`' :: '`' :: '`' :: X) :=
    notOccurs_append hqbt h5 body hbody
  have h3 : ¬ occursL q (path ++ '\n' :: (body ++ '`' :: '`' :: '`' :: X)) := by
    apply notOccurs_append (ws_not_mem hqws (by decide)) ?_ path hpath
    exact notOccurs_cons_ws hq hqws (by decide) h4
  have h2 : ¬ occursL q ('#' :: ' ' :: (path ++ '\n' :: (body ++ '`' :: '`' :: '`' :: X))) := by
    apply notOccurs_cons (leadsWith_false_hash _ hqws hqdot)
    exact notOccurs_cons_ws hq hqws (by decide) h3
  have h1 : ¬ occursL q
      (lang ++ '\n' :: '#' :: ' ' :: (path ++ '\n' :: (body ++ '`' :: '`' :: '`' :: X))) := by
    apply notOccurs_append (ws_not_mem hqws (by decide)) ?_ lang
      (notOccurs_missing '.' hqdot hlang)
    exact notOccurs_cons_ws hq hqws (by decide) h2
  exact notOccurs_cons (leadsWith_false_bt hq hqbt _)
    (notOccurs_cons (leadsWith_false_bt hq hqbt _)
      (notOccurs_cons (leadsWith_false_bt hq hqbt _) h1))

/-- Destructor for `contentOkB`. -/
lemma contentOkB_some {refs : List String} {o : Option String}
    (h : contentOkB refs o = true) :
    ∃ oc, o = some oc ∧ (∀ c ∈ oc.data, c ≠ '`') ∧
      (∀ r ∈ refs, ¬ occursL r.data oc.data) := by
  cases o with
  | none => exact Bool.noConfusion h
  | some oc =>
    unfold contentOkB at h
    rw [Bool.and_eq_true] at h
    refine ⟨oc, rfl, ?_, ?_⟩
    · intro c hc
      have hx := (List.all_eq_true.mp h.1) c hc
      simpa using hx
    · intro r hr hocc
      have hx := (List.all_eq_true.mp h.2) r hr
      have hb := (occursB_iff _ _).mpr hocc
      rw [hb] at hx
      cases hx

/-- No whitespace-free token occurs in a chunk followed by a raw
tail. -/
lemma notOccurs_chunkTail (q : List Char) (hq : q ≠ [])
    (hqws : ∀ x ∈ q, isPyWs x = false) (c : String)
    (rest : List (String × String))
    (hcc : ¬ occursL q c.data)
    (hp : ∀ s ∈ rest, ¬ occursL q s.1.data)
    (hc : ∀ s ∈ rest, ¬ occursL q s.2.data)
    (hinner : ∀ s ∈ rest.dropLast, startsWS s.2 = true ∧ endsWS s.2 = true)
    (hlast : ∀ s, rest.getLast? = some s → s.2 = "" ∨ startsWS s.2 = true)
    (hbound : rest = [] ∨ endsWS c = true) :
    ¬ occursL q (c.data ++ rawTail rest) := by
  cases rest with
  | nil =>
    rw [rawTail, List.append_nil]
    exact hcc
  | cons s2 r2 =>
    have hwse : endsWS c = true := by
      rcases hbound with h | h
      · cases h
      · exact h
    obtain ⟨w2, l2, hcd2, hw2⟩ := endsWS_data hwse
    have htail : ¬ occursL q (rawTail (s2 :: r2)) :=
      notOccurs_rawTail q hq hqws (s2 :: r2) hp hc hinner hlast
    rw [hcd2]
    have hsh : (l2 ++ [w2]) ++ rawTail (s2 :: r2) = l2 ++ w2 :: rawTail (s2 :: r2) := by
      simp
    rw [hsh]
    apply notOccurs_append (ws_not_mem hqws hw2)
      (notOccurs_cons_ws hq hqws hw2 htail) l2
    intro hocc
    apply hcc
    rw [hcd2]
    exact occursL_append_right [w2] hocc

/-- The needle facts packaged for a reference token. -/
lemma refShape_facts {refs : List String} {q : String}
    (hshape : ∀ r ∈ refs, r.data ≠ [] ∧ (∀ ch ∈ r.data, isTokChar ch = true ∧ ch ≠ '`') ∧
      '.' ∈ r.data) (hqm : q ∈ refs) :
    q.data ≠ [] ∧ (∀ ch ∈ q.data, isPyWs ch = false) ∧ '`' ∉ q.data ∧ '.' ∈ q.data := by
  obtain ⟨h1, h2, h3⟩ := hshape q hqm
  exact ⟨h1, fun ch hch => tokChar_not_ws (h2 ch hch).1, fun h => (h2 '`' h).2 rfl, h3⟩

/-- No reference token occurs in the rendered block of a different
reference plus clean context. -/
lemma notOccurs_blockOf (idx : CPIndexer) (refs : List String)
    (hshape : ∀ r ∈ refs, r.data ≠ [] ∧ (∀ ch ∈ r.data, isTokChar ch = true ∧ ch ≠ '`') ∧
      '.' ∈ r.data)
    (q p : String) (hqm : q ∈ refs)
    (oc : String) (hoc : get_file_content idx p = some oc)
    (hocbt : ∀ ch ∈ oc.data, ch ≠ '`')
    (hqoc : ¬ occursL q.data oc.data)
    (hqp : ¬ occursL q.data p.data)
    (X : List Char) (hX : ¬ occursL q.data X) :
    ¬ occursL q.data (blockFor idx p ++ X) := by
  obtain ⟨hqne, hqws, hqbt, hqdot⟩ := refShape_facts hshape hqm
  have hbf : blockFor idx p =
      blockL (get_file_language p).data p.data (oc.data ++ ['\n']) := by
    rw [blockFor, hoc]
    exact code_block_data _ _ _
  rw [hbf]
  apply notOccurs_blockL_ctx q.data _ _ _ X hqne hqws hqbt hqdot
  · intro hdot
    exact wordChar_not_dot ((get_file_language_word p).1 '.' hdot) rfl
  · exact hqp
  · apply notOccurs_append (ws_not_mem hqws (by decide)) ?_ oc.data hqoc
    apply notOccurs_cons_ws hqne hqws (by decide)
    intro hocc
    exact hqne (occursL_nil hocc)
  · exact hX

/-- The render fold turns a structured raw text into the corresponding
rendered text. -/
lemma render_fold (idx : CPIndexer) (refs : List String)
    (hshape : ∀ r ∈ refs, r.data ≠ [] ∧ (∀ ch ∈ r.data, isTokChar ch = true ∧ ch ≠ '`') ∧
      '.' ∈ r.data)
    (hpairs : ∀ r1 ∈ refs, ∀ r2 ∈ refs, r1 ≠ r2 → ¬ occursL r1.data r2.data)
    (hfiles : ∀ r ∈ refs, contentOkB refs (get_file_content idx r) = true) :
    ∀ (segs : List (String × String)) (P : List Char),
    (∀ s ∈ segs, s.1 ∈ refs) →
    (segs.map Prod.fst).Nodup →
    (∀ s ∈ segs, (∀ ch ∈ s.2.data, ch ≠ '`') ∧ (∀ r ∈ refs, ¬ occursL r.data s.2.data)) →
    (∀ s ∈ segs.dropLast, startsWS s.2 = true ∧ endsWS s.2 = true) →
    (∀ s, segs.getLast? = some s → s.2 = "" ∨ startsWS s.2 = true) →
    (segs = [] ∨ P = [] ∨ ∃ w P', P = P' ++ [w] ∧ isPyWs w = true) →
    (∀ s ∈ segs, ¬ occursL s.1.data P) →
    (segs.map Prod.fst).foldl (renderStep idx []) ((P ++ rawTail segs).asString) =
      (P ++ renTail idx segs).asString := by
  intro segs
  induction segs with
  | nil =>
    intro P _ _ _ _ _ _ _
    rw [List.map_nil, List.foldl_nil, rawTail, renTail]
  | cons sc rest ih =>
    intro P hmem hnd hcky hinner hlastc hP1 hP2
    obtain ⟨p, c⟩ := sc
    have hpm : p ∈ refs := hmem (p, c) (List.mem_cons_self _ _)
    obtain ⟨hpne, hpws, hpbt, hpdot⟩ := refShape_facts hshape hpm
    obtain ⟨oc, hoc, hocbt, hocnocc⟩ := contentOkB_some (hfiles p hpm)
    have hpnotin : p ∉ rest.map Prod.fst := by
      rw [List.map_cons, List.nodup_cons] at hnd
      exact hnd.1
    have hndr : (rest.map Prod.fst).Nodup := by
      rw [List.map_cons, List.nodup_cons] at hnd
      exact hnd.2
    -- conditions of the tail for the occurrence lemmas
    have hrestp : ∀ s ∈ rest, ¬ occursL p.data s.1.data := by
      intro s hs
      apply hpairs p hpm s.1 (hmem s (List.mem_cons_of_mem _ hs))
      intro he
      exact hpnotin (he ▸ List.mem_map_of_mem Prod.fst hs)
    have hrestc : ∀ s ∈ rest, ¬ occursL p.data s.2.data := by
      intro s hs
      exact ((hcky s (List.mem_cons_of_mem _ hs)).2 p hpm)
    have hinnerr : ∀ s ∈ rest.dropLast, startsWS s.2 = true ∧ endsWS s.2 = true := by
      intro s hs
      cases hr : rest with
      | nil => rw [hr] at hs; cases hs
      | cons a b =>
        rw [hr] at hs
        have hm : s ∈ ((p, c) :: rest).dropLast := by
          rw [hr]
          exact List.mem_cons_of_mem _ hs
        exact hinner s hm
    have hlastr : ∀ s, rest.getLast? = some s → s.2 = "" ∨ startsWS s.2 = true := by
      intro s hs
      cases hr : rest with
      | nil => rw [hr] at hs; cases hs
      | cons a b =>
        apply hlastc
        rw [hr, List.getLast?_cons_cons]
        rw [hr] at hs
        exact hs
    have hccp : ¬ occursL p.data c.data := (hcky (p, c) (List.mem_cons_self _ _)).2 p hpm
    have hboundc : rest = [] ∨ endsWS c = true := by
      cases hr : rest with
      | nil => exact Or.inl rfl
      | cons a b =>
        right
        have := hinner (p, c) (by rw [hr]; exact List.mem_cons_self _ _)
        exact this.2
    have hE : ¬ occursL p.data (c.data ++ rawTail rest) :=
      notOccurs_chunkTail p.data hpne hpws c rest hccp hrestp hrestc hinnerr hlastr hboundc
    have hPlast : ∀ w, P.getLast? = some w → w ∉ p.data := by
      rcases hP1 with h | h | ⟨w0, P', hPd, hw0⟩
      · cases h
      · intro w hw; rw [h] at hw; cases hw
      · intro w hw
        rw [hPd, List.getLast?_concat] at hw
        rw [← Option.some.inj hw]
        exact ws_not_mem hpws hw0
    -- the single render step
    have hstep : renderStep idx [] ((P ++ rawTail ((p, c) :: rest)).asString) p =
        ((P ++ blockFor idx p ++ c.data) ++ rawTail rest).asString := by
      unfold renderStep
      simp only [lookupEdit, hoc]
      unfold replaceAllS
      rw [asString_data]
      rw [rawTail]
      have hsh : P ++ (p.data ++ (c.data ++ rawTail rest)) =
          P ++ p.data ++ (c.data ++ rawTail rest) := by simp
      rw [hsh]
      rw [replaceAll_split p.data _ hpne P (c.data ++ rawTail rest)
        (hP2 (p, c) (List.mem_cons_self _ _)) hPlast hE]
      apply congrArg List.asString
      have hbf : (code_block (get_file_language p) p oc).data = blockFor idx p := by
        rw [blockFor, hoc]
        rfl
      rw [hbf]
      simp
    rw [List.map_cons, List.foldl_cons, hstep]
    -- invariants for the tail
    have hP1' : rest = [] ∨ P ++ blockFor idx p ++ c.data = [] ∨
        ∃ w P', P ++ blockFor idx p ++ c.data = P' ++ [w] ∧ isPyWs w = true := by
      cases hr : rest with
      | nil => exact Or.inl rfl
      | cons a b =>
        right; right
        have hwse : endsWS c = true := by
          have := hinner (p, c) (by rw [hr]; exact List.mem_cons_self _ _)
          exact this.2
        obtain ⟨w2, l2, hcd2, hw2⟩ := endsWS_data hwse
        exact ⟨w2, P ++ blockFor idx p ++ l2, by rw [hcd2]; simp, hw2⟩
    have hP2' : ∀ s ∈ rest, ¬ occursL s.1.data (P ++ blockFor idx p ++ c.data) := by
      intro s hs
      have hqm : s.1 ∈ refs := hmem s (List.mem_cons_of_mem _ hs)
      obtain ⟨hqne, hqws, hqbt, hqdot⟩ := refShape_facts hshape hqm
      have hqnep : s.1 ≠ p := by
        intro he
        exact hpnotin (he ▸ List.mem_map_of_mem Prod.fst hs)
      have hqp : ¬ occursL s.1.data p.data := hpairs s.1 hqm p hpm hqnep
      have hqoc : ¬ occursL s.1.data oc.data := hocnocc s.1 hqm
      have hqc : ¬ occursL s.1.data c.data :=
        (hcky (p, c) (List.mem_cons_self _ _)).2 s.1 hqm
      have hctx : ¬ occursL s.1.data (blockFor idx p ++ c.data) :=
        notOccurs_blockOf idx refs hshape s.1 p hqm oc hoc hocbt hqoc hqp c.data hqc
      have hqP : ¬ occursL s.1.data P := hP2 s (List.mem_cons_of_mem _ hs)
      rw [List.append_assoc]
      rcases hP1 with h | h | ⟨w0, P', hPd, hw0⟩
      · cases h
      · rw [h, List.nil_append]
        exact hctx
      · rw [hPd]
        have hsh : (P' ++ [w0]) ++ (blockFor idx p ++ c.data) =
            P' ++ w0 :: (blockFor idx p ++ c.data) := by simp
        rw [hsh]
        apply notOccurs_append (ws_not_mem hqws hw0)
          (notOccurs_cons_ws hqne hqws hw0 hctx) P'
        intro hocc
        apply hqP
        rw [hPd]
        exact occursL_append_right [w0] hocc
    rw [ih (P ++ blockFor idx p ++ c.data) (fun s hs => hmem s (List.mem_cons_of_mem _ hs))
      hndr (fun s hs => hcky s (List.mem_cons_of_mem _ hs)) hinnerr hlastr hP1' hP2']
    apply congrArg List.asString
    rw [renTail]
    simp

/-- The block-pattern scan over a clean region followed by a rendered
tail returns exactly the rendered groups, in order. -/
lemma extract_renTail (idx : CPIndexer) (refs : List String)
    (hshape : ∀ r ∈ refs, r.data ≠ [] ∧ (∀ ch ∈ r.data, isTokChar ch = true ∧ ch ≠ '`') ∧
      '.' ∈ r.data)
    (hfiles : ∀ r ∈ refs, contentOkB refs (get_file_content idx r) = true) :
    ∀ (segs : List (String × String)) (a : List Char) (f : Nat),
    (∀ s ∈ segs, s.1 ∈ refs) →
    (∀ s ∈ segs, ∀ ch ∈ s.2.data, ch ≠ '`') →
    ('`' ∉ a) →
    (a.length + (renTail idx segs).length ≤ f) →
    extractLoopF f (a ++ renTail idx segs) =
      segs.map (fun s => ((get_file_language s.1).data, s.1.data,
        ((get_file_content idx s.1).getD "").data ++ ['\n'])) := by
  intro segs
  induction segs with
  | nil =>
    intro a f _ _ ha hf
    rw [renTail, List.append_nil, List.map_nil]
    exact extractLoopF_clean a ha f (by simpa [renTail] using hf)
  | cons sc rest ih =>
    intro a f hmem hcbt ha hf
    obtain ⟨p, c⟩ := sc
    have hpm : p ∈ refs := hmem (p, c) (List.mem_cons_self _ _)
    obtain ⟨hpne, hpws, hpbt, hpdot⟩ := refShape_facts hshape hpm
    obtain ⟨oc, hoc, hocbt, hocnocc⟩ := contentOkB_some (hfiles p hpm)
    have hbf : blockFor idx p =
        blockL (get_file_language p).data p.data (oc.data ++ ['\n']) := by
      rw [blockFor, hoc]
      exact code_block_data _ _ _
    have h1 : a.length ≤ f := le_trans (Nat.le_add_right _ _) hf
    rw [extractLoopF_skip a ha f _ h1]
    have hf1 : (renTail idx ((p, c) :: rest)).length ≤ f - a.length := by omega
    have hrtl : (renTail idx ((p, c) :: rest)).length =
        (blockL (get_file_language p).data p.data (oc.data ++ ['\n'])).length +
          (c.data ++ renTail idx rest).length := by
      rw [renTail, hbf, List.length_append]
    have hlb := blockL_length (get_file_language p).data p.data (oc.data ++ ['\n'])
    obtain ⟨f', hfeq⟩ : ∃ f', f - a.length = f' + 1 := ⟨f - a.length - 1, by omega⟩
    rw [renTail, hbf, hfeq]
    have hpnl : ∀ ch ∈ p.data, ch ≠ '\n' := by
      intro ch hch he
      subst he
      have hx := hpws '\n' hch
      revert hx; decide
    have hobt : ∀ ch ∈ oc.data ++ ['\n'], ch ≠ '`' := by
      intro ch hch
      rcases List.mem_append.mp hch with h | h
      · exact hocbt ch h
      · intro he
        subst he
        revert h; decide
    rw [extractLoopF_block (get_file_language p).data p.data (oc.data ++ ['\n'])
      (c.data ++ renTail idx rest) f' (get_file_language_word p).1 hpne hpnl hobt]
    have hca : (c.data ++ renTail idx rest).length =
        c.data.length + (renTail idx rest).length := List.length_append _ _
    rw [ih c.data f' (fun s hs => hmem s (List.mem_cons_of_mem _ hs))
      (fun s hs => hcbt s (List.mem_cons_of_mem _ hs))
      (fun h => hcbt (p, c) (List.mem_cons_self _ _) '`' h rfl)
      (by omega)]
    rw [List.map_cons]
    simp only [hoc]
    rfl

/-! ### Header occurrence-freedom in rendered text (claim C2) -/

/-- Head mismatch refutes `leadsWith`. -/
lemma leadsWith_cons_ne {a c : Char} {ps s : List Char} (h : a ≠ c) :
    leadsWith (a :: ps) (c :: s) = false := by
  simp [leadsWith, h]

/-- Head match reduces `leadsWith` one step. -/
lemma leadsWith_cons_eq {a : Char} {ps s : List Char} :
    leadsWith (a :: ps) (a :: s) = leadsWith ps s := by
  simp [leadsWith]

/-- Whitespace characters are not word characters. -/
lemma ws_not_word {x : Char} (h : isPyWs x = true) : isWordChar x = false := by
  cases hx : isWordChar x
  · rfl
  · rw [wordChar_not_ws hx] at h
    cases h

/-- The shape hypothesis on the region following a closing fence. -/
def FenceNext (X : List Char) : Prop :=
  X = [] ∨ (∃ x xs, X = x :: xs ∧ isPyWs x = true) ∨
    (∃ y3 g gs, X = '`' :: '`' :: '`' :: y3 ∧ y3 = g :: gs ∧ isWordChar g = true)

/-- A block header never matches at or inside a closing fence followed
by a `FenceNext` region it does not occur in. -/
lemma notOccurs_header_fenceX (L p : String)
    (hLhead : ∃ lh lt, L.data = lh :: lt ∧ isWordChar lh = true)
    (X : List Char)
    (hX : ¬ occursL (blockHeader L p) X)
    (hXs : FenceNext X) :
    ¬ occursL (blockHeader L p) ('`' :: '`' :: '`' :: X) := by
  obtain ⟨lh, lt, hLd, hlw⟩ := hLhead
  have hHd := blockHeader_data L p
  have hHM : ∀ (x : Char) (xs : List Char), isWordChar x = false →
      leadsWith (L.data ++ '\n' :: '#' :: ' ' :: (p.data ++ ['\n'])) (x :: xs) = false := by
    intro x xs hx
    rw [hLd, List.cons_append]
    apply leadsWith_cons_ne
    intro he
    rw [he, hx] at hlw
    cases hlw
  have hHMnil : leadsWith (L.data ++ '\n' :: '#' :: ' ' :: (p.data ++ ['\n'])) [] = false := by
    rw [hLd, List.cons_append]
    rfl
  have lead0 : leadsWith (blockHeader L p) ('`' :: '`' :: '`' :: X) = false := by
    rw [hHd, leadsWith_cons_eq, leadsWith_cons_eq, leadsWith_cons_eq]
    rcases hXs with h | ⟨x, xs, hXx, hxw⟩ | ⟨y3, g, gs, hXx, hy3, hgw⟩
    · rw [h]; exact hHMnil
    · rw [hXx]; exact hHM x xs (ws_not_word hxw)
    · rw [hXx]; exact hHM '`' _ (by decide)
  have lead1 : leadsWith (blockHeader L p) ('`' :: '`' :: X) = false := by
    rw [hHd, leadsWith_cons_eq, leadsWith_cons_eq]
    rcases hXs with h | ⟨x, xs, hXx, hxw⟩ | ⟨y3, g, gs, hXx, hy3, hgw⟩
    · rw [h]; rfl
    · rw [hXx]
      apply leadsWith_cons_ne
      intro he
      rw [← he] at hxw
      revert hxw; decide
    · rw [hXx, leadsWith_cons_eq]
      exact hHM '`' _ (by decide)
  have lead2 : leadsWith (blockHeader L p) ('`' :: X) = false := by
    rw [hHd, leadsWith_cons_eq]
    rcases hXs with h | ⟨x, xs, hXx, hxw⟩ | ⟨y3, g, gs, hXx, hy3, hgw⟩
    · rw [h]; rfl
    · rw [hXx]
      apply leadsWith_cons_ne
      intro he
      rw [← he] at hxw
      revert hxw; decide
    · rw [hXx, leadsWith_cons_eq, leadsWith_cons_eq]
      exact hHM '`' y3 (by decide)
  exact notOccurs_cons lead0 (notOccurs_cons lead1 (notOccurs_cons lead2 hX))

/-- A block header for path `p` never occurs in the rendered block of a
different path `p2` followed by a `FenceNext` region it does not occur
in. -/
lemma notOccurs_header_block (L p L2 p2 : String) (body2 : List Char)
    (hLhead : ∃ lh lt, L.data = lh :: lt ∧ isWordChar lh = true)
    (hLw : ∀ ch ∈ L.data, isWordChar ch = true)
    (hpnl : ∀ ch ∈ p.data, ch ≠ '\n')
    (hL2head : ∃ lh lt, L2.data = lh :: lt ∧ isWordChar lh = true)
    (hL2w : ∀ ch ∈ L2.data, isWordChar ch = true)
    (hp2nl : ∀ ch ∈ p2.data, ch ≠ '\n')
    (hpne2 : p ≠ p2)
    (hp2bt : '`' ∉ p2.data)
    (hbody2bt : '`' ∉ body2)
    (X : List Char)
    (hX : ¬ occursL (blockHeader L p) X)
    (hXs : FenceNext X) :
    ¬ occursL (blockHeader L p)
      ('`' :: '`' :: '`' ::
        (L2.data ++ '\n' :: '#' :: ' ' :: (p2.data ++ '\n' :: (body2 ++ '`' :: '`' :: '`' :: X)))) := by
  obtain ⟨lh, lt, hLd, hlw⟩ := hLhead
  obtain ⟨l2h, l2t, hL2d, hl2w⟩ := hL2head
  have hHd := blockHeader_data L p
  have P2 : ¬ occursL (blockHeader L p) ('`' :: '`' :: '`' :: X) :=
    notOccurs_header_fenceX L p ⟨lh, lt, hLd, hlw⟩ X hX hXs
  have P3 : ¬ occursL (blockHeader L p) (body2 ++ '`' :: '`' :: '`' :: X) :=
    notOccurs_append_clean hHd P2 body2 hbody2bt
  have P4 : ¬ occursL (blockHeader L p) ('\n' :: (body2 ++ '`' :: '`' :: '`' :: X)) := by
    apply notOccurs_cons ?_ P3
    rw [hHd]
    exact leadsWith_cons_ne (by decide)
  have P5 : ¬ occursL (blockHeader L p)
      (p2.data ++ '\n' :: (body2 ++ '`' :: '`' :: '`' :: X)) :=
    notOccurs_append_clean hHd P4 p2.data hp2bt
  have P6 : ¬ occursL (blockHeader L p)
      (' ' :: (p2.data ++ '\n' :: (body2 ++ '`' :: '`' :: '`' :: X))) := by
    apply notOccurs_cons ?_ P5
    rw [hHd]
    exact leadsWith_cons_ne (by decide)
  have P7 : ¬ occursL (blockHeader L p)
      ('#' :: ' ' :: (p2.data ++ '\n' :: (body2 ++ '`' :: '`' :: '`' :: X))) := by
    apply notOccurs_cons ?_ P6
    rw [hHd]
    exact leadsWith_cons_ne (by decide)
  have P8 : ¬ occursL (blockHeader L p)
      ('\n' :: '#' :: ' ' :: (p2.data ++ '\n' :: (body2 ++ '`' :: '`' :: '`' :: X))) := by
    apply notOccurs_cons ?_ P7
    rw [hHd]
    exact leadsWith_cons_ne (by decide)
  have P9 : ¬ occursL (blockHeader L p)
      (L2.data ++ '\n' :: '#' :: ' ' :: (p2.data ++ '\n' :: (body2 ++ '`' :: '`' :: '`' :: X))) := by
    apply notOccurs_append_clean hHd P8 L2.data
    intro hbt2
    exact wordChar_not_bt (hL2w '`' hbt2) rfl
  have leadTop0 : leadsWith (blockHeader L p)
      ('`' :: '`' :: '`' ::
        (L2.data ++ '\n' :: '#' :: ' ' ::
          (p2.data ++ '\n' :: (body2 ++ '`' :: '`' :: '`' :: X)))) = false := by
    rw [hHd, leadsWith_cons_eq, leadsWith_cons_eq, leadsWith_cons_eq]
    cases hlw2 : leadsWith (L.data ++ '\n' :: '#' :: ' ' :: (p.data ++ ['\n']))
        (L2.data ++ '\n' :: '#' :: ' ' :: (p2.data ++ '\n' :: (body2 ++ '`' :: '`' :: '`' :: X)))
    · rfl
    · exfalso
      have hLnl : '\n' ∉ L.data := fun h => wordChar_not_nl (hLw '\n' h) rfl
      have hL2nl : '\n' ∉ L2.data := fun h => wordChar_not_nl (hL2w '\n' h) rfl
      obtain ⟨hLeq, hl2⟩ := nlfree_align hLnl hL2nl hlw2
      rw [leadsWith_cons_eq, leadsWith_cons_eq] at hl2
      have hpnl' : '\n' ∉ p.data := fun h => hpnl '\n' h rfl
      have hp2nl' : '\n' ∉ p2.data := fun h => hp2nl '\n' h rfl
      obtain ⟨hpeq, _⟩ := nlfree_align hpnl' hp2nl' hl2
      exact hpne2 (String.ext hpeq)
  have leadTop1 : leadsWith (blockHeader L p)
      ('`' :: '`' ::
        (L2.data ++ '\n' :: '#' :: ' ' ::
          (p2.data ++ '\n' :: (body2 ++ '`' :: '`' :: '`' :: X)))) = false := by
    rw [hHd, leadsWith_cons_eq, leadsWith_cons_eq, hL2d, List.cons_append]
    apply leadsWith_cons_ne
    intro he
    exact wordChar_not_bt hl2w he.symm
  have leadTop2 : leadsWith (blockHeader L p)
      ('`' ::
        (L2.data ++ '\n' :: '#' :: ' ' ::
          (p2.data ++ '\n' :: (body2 ++ '`' :: '`' :: '`' :: X)))) = false := by
    rw [hHd, leadsWith_cons_eq, hL2d, List.cons_append]
    apply leadsWith_cons_ne
    intro he
    exact wordChar_not_bt hl2w he.symm
  exact notOccurs_cons leadTop0 (notOccurs_cons leadTop1 (notOccurs_cons leadTop2 P9))

/-- A block header for a path not rendered in the tail never occurs in
the rendered tail. -/
lemma notOccursH_renTail (idx : CPIndexer) (refs : List String)
    (hshape : ∀ r ∈ refs, r.data ≠ [] ∧ (∀ ch ∈ r.data, isTokChar ch = true ∧ ch ≠ '`') ∧
      '.' ∈ r.data)
    (hfiles : ∀ r ∈ refs, contentOkB refs (get_file_content idx r) = true) :
    ∀ (segs : List (String × String)) (L p : String),
    (∃ lh lt, L.data = lh :: lt ∧ isWordChar lh = true) →
    (∀ ch ∈ L.data, isWordChar ch = true) →
    (∀ ch ∈ p.data, ch ≠ '\n') →
    (∀ s ∈ segs, s.1 ∈ refs) →
    (p ∉ segs.map Prod.fst) →
    (∀ s ∈ segs, ∀ ch ∈ s.2.data, ch ≠ '`') →
    (∀ s ∈ segs.dropLast, startsWS s.2 = true) →
    (∀ s, segs.getLast? = some s → s.2 = "" ∨ startsWS s.2 = true) →
    ¬ occursL (blockHeader L p) (renTail idx segs) := by
  intro segs
  induction segs with
  | nil =>
    intro L p _ _ _ _ _ _ _ _ h
    rw [renTail] at h
    have hx := occursL_nil h
    rw [blockHeader_data] at hx
    cases hx
  | cons sc rest ih =>
    intro L p hLh hLw hpnl hmem hpnot hcbt hinner hlast
    obtain ⟨p2, c2⟩ := sc
    have hp2m : p2 ∈ refs := hmem _ (List.mem_cons_self _ _)
    obtain ⟨hp2ne, hp2ws, hp2bt, hp2dot⟩ := refShape_facts hshape hp2m
    obtain ⟨oc2, hoc2, hoc2bt, _⟩ := contentOkB_some (hfiles p2 hp2m)
    have hbf2 : blockFor idx p2 =
        blockL (get_file_language p2).data p2.data (oc2.data ++ ['\n']) := by
      rw [blockFor, hoc2]
      exact code_block_data _ _ _
    have hL2w := (get_file_language_word p2).1
    have hL2ne := (get_file_language_word p2).2
    obtain ⟨l2h, l2t, hL2d⟩ : ∃ h t, (get_file_language p2).data = h :: t := by
      cases hx : (get_file_language p2).data with
      | nil => exact absurd hx hL2ne
      | cons a b => exact ⟨a, b, rfl⟩
    have hl2w : isWordChar l2h = true := hL2w l2h (by rw [hL2d]; simp)
    have hIH : ¬ occursL (blockHeader L p) (renTail idx rest) := by
      apply ih L p hLh hLw hpnl (fun s hs => hmem s (List.mem_cons_of_mem _ hs))
        (fun h => hpnot (by rw [List.map_cons]; exact List.mem_cons_of_mem _ h))
        (fun s hs => hcbt s (List.mem_cons_of_mem _ hs))
      · intro s hs
        cases hr : rest with
        | nil => rw [hr] at hs; cases hs
        | cons a b =>
          rw [hr] at hs
          have hm : s ∈ ((p2, c2) :: rest).dropLast := by
            rw [hr]
            exact List.mem_cons_of_mem _ hs
          exact hinner s hm
      · intro s hs
        cases hr : rest with
        | nil => rw [hr] at hs; cases hs
        | cons a b =>
          apply hlast
          rw [hr, List.getLast?_cons_cons]
          rw [hr] at hs
          exact hs
    have hc2bt : '`' ∉ c2.data := fun h => hcbt (p2, c2) (List.mem_cons_self _ _) '`' h rfl
    have hXocc : ¬ occursL (blockHeader L p) (c2.data ++ renTail idx rest) :=
      notOccurs_append_clean (blockHeader_data L p) hIH c2.data hc2bt
    have hXs : FenceNext (c2.data ++ renTail idx rest) := by
      by_cases hc2e : c2 = ""
      · subst hc2e
        cases hr : rest with
        | nil =>
          left
          simp [renTail, empty_data]
        | cons s3 r3 =>
          obtain ⟨p3, c3⟩ := s3
          have hp3m : p3 ∈ refs := hmem (p3, c3) (by rw [hr]; simp)
          obtain ⟨oc3, hoc3, _, _⟩ := contentOkB_some (hfiles p3 hp3m)
          have hbf3 : blockFor idx p3 =
              blockL (get_file_language p3).data p3.data (oc3.data ++ ['\n']) := by
            rw [blockFor, hoc3]
            exact code_block_data _ _ _
          have hL3ne := (get_file_language_word p3).2
          obtain ⟨l3h, l3t, hL3d⟩ : ∃ h t, (get_file_language p3).data = h :: t := by
            cases hx : (get_file_language p3).data with
            | nil => exact absurd hx hL3ne
            | cons a b => exact ⟨a, b, rfl⟩
          have hl3w : isWordChar l3h = true :=
            (get_file_language_word p3).1 l3h (by rw [hL3d]; simp)
          right; right
          refine ⟨(get_file_language p3).data ++
              '\n' :: '#' :: ' ' :: (p3.data ++
                '\n' :: ((oc3.data ++ ['\n']) ++ '`' :: '`' :: '`' :: (c3.data ++ renTail idx r3))),
            l3h,
            l3t ++ '\n' :: '#' :: ' ' :: (p3.data ++
              '\n' :: ((oc3.data ++ ['\n']) ++ '`' :: '`' :: '`' :: (c3.data ++ renTail idx r3))),
            ?_, ?_, hl3w⟩
          · rw [empty_data, List.nil_append, renTail, hbf3, blockL_append]
          · rw [hL3d, List.cons_append]
      · have hstart : startsWS c2 = true := by
          cases hr : rest with
          | nil =>
            rcases hlast (p2, c2) (by rw [hr]; simp) with h | h
            · exact absurd h hc2e
            · exact h
          | cons a b =>
            have hm : (p2, c2) ∈ ((p2, c2) :: rest).dropLast := by
              rw [hr]
              exact List.mem_cons_self _ _
            exact hinner (p2, c2) hm
        obtain ⟨w, l, hcd, hw⟩ := startsWS_data hstart
        right; left
        exact ⟨w, l ++ renTail idx rest, by rw [hcd]; rfl, hw⟩
    have hpne2 : p ≠ p2 := by
      intro he
      apply hpnot
      rw [List.map_cons, he]
      exact List.mem_cons_self _ _
    have hp2nl : ∀ ch ∈ p2.data, ch ≠ '\n' := by
      intro ch hch he
      subst he
      have hx := hp2ws '\n' hch
      revert hx; decide
    have hbody2bt : '`' ∉ oc2.data ++ ['\n'] := by
      intro h
      rcases List.mem_append.mp h with h | h
      · exact hoc2bt '`' h rfl
      · revert h; decide
    rw [renTail, hbf2, blockL_append]
    exact notOccurs_header_block L p (get_file_language p2) p2 (oc2.data ++ ['\n'])
      hLh hLw hpnl ⟨l2h, l2t, hL2d, hl2w⟩ hL2w hp2nl hpne2 hp2bt hbody2bt _ hXocc hXs

/-- The collapse fold of `convert_rendered_to_raw` turns a structured
rendered text back into the raw text, one block per extracted tuple. -/
lemma convert_fold (idx : CPIndexer) (refs : List String)
    (hshape : ∀ r ∈ refs, r.data ≠ [] ∧ (∀ ch ∈ r.data, isTokChar ch = true ∧ ch ≠ '`') ∧
      '.' ∈ r.data)
    (hfiles : ∀ r ∈ refs, contentOkB refs (get_file_content idx r) = true) :
    ∀ (segs : List (String × String)) (bodyF : String × String → String) (A : List Char),
    (∀ s ∈ segs, s.1 ∈ refs) →
    ((segs.map Prod.fst).Nodup) →
    (∀ s ∈ segs, ∀ ch ∈ s.2.data, ch ≠ '`') →
    (∀ s ∈ segs.dropLast, startsWS s.2 = true) →
    (∀ s, segs.getLast? = some s → s.2 = "" ∨ startsWS s.2 = true) →
    ('`' ∉ A) →
    (segs.map (fun s => (s.1, get_file_language s.1, bodyF s))).foldl subStep
        ((A ++ renTail idx segs).asString) =
      (A ++ rawTail segs).asString := by
  intro segs
  induction segs with
  | nil =>
    intro bodyF A _ _ _ _ _ _
    rw [List.map_nil, List.foldl_nil, renTail, rawTail]
  | cons sc rest ih =>
    intro bodyF A hmem hnd hcbt hinner hlast hA
    obtain ⟨p, c⟩ := sc
    have hpm : p ∈ refs := hmem _ (List.mem_cons_self _ _)
    obtain ⟨hpne, hpws, hpbt, hpdot⟩ := refShape_facts hshape hpm
    obtain ⟨oc, hoc, hocbt, _⟩ := contentOkB_some (hfiles p hpm)
    have hbf : blockFor idx p =
        blockL (get_file_language p).data p.data (oc.data ++ ['\n']) := by
      rw [blockFor, hoc]
      exact code_block_data _ _ _
    have hLw := (get_file_language_word p).1
    have hLne := (get_file_language_word p).2
    have hpnl : ∀ ch ∈ p.data, ch ≠ '\n' := by
      intro ch hch he
      subst he
      have hx := hpws '\n' hch
      revert hx; decide
    have hHd := blockHeader_data (get_file_language p) p
    have hpnotin : p ∉ rest.map Prod.fst := by
      rw [List.map_cons, List.nodup_cons] at hnd
      exact hnd.1
    have hndr : (rest.map Prod.fst).Nodup := by
      rw [List.map_cons, List.nodup_cons] at hnd
      exact hnd.2
    have hinnerr : ∀ s ∈ rest.dropLast, startsWS s.2 = true := by
      intro s hs
      cases hr : rest with
      | nil => rw [hr] at hs; cases hs
      | cons a b =>
        rw [hr] at hs
        have hm : s ∈ ((p, c) :: rest).dropLast := by
          rw [hr]
          exact List.mem_cons_of_mem _ hs
        exact hinner s hm
    have hlastr : ∀ s, rest.getLast? = some s → s.2 = "" ∨ startsWS s.2 = true := by
      intro s hs
      cases hr : rest with
      | nil => rw [hr] at hs; cases hs
      | cons a b =>
        apply hlast
        rw [hr, List.getLast?_cons_cons]
        rw [hr] at hs
        exact hs
    have hc2bt : '`' ∉ c.data := fun h => hcbt (p, c) (List.mem_cons_self _ _) '`' h rfl
    have hnoH : ¬ occursL (blockHeader (get_file_language p) p)
        (c.data ++ renTail idx rest) := by
      apply notOccurs_append_clean hHd ?_ c.data hc2bt
      apply notOccursH_renTail idx refs hshape hfiles rest (get_file_language p) p
      · obtain ⟨lh, lt, hLd⟩ : ∃ h t, (get_file_language p).data = h :: t := by
          cases hx : (get_file_language p).data with
          | nil => exact absurd hx hLne
          | cons a b => exact ⟨a, b, rfl⟩
        exact ⟨lh, lt, hLd, hLw lh (by rw [hLd]; simp)⟩
      · exact hLw
      · exact hpnl
      · exact fun s hs => hmem s (List.mem_cons_of_mem _ hs)
      · exact hpnotin
      · exact fun s hs => hcbt s (List.mem_cons_of_mem _ hs)
      · exact hinnerr
      · exact hlastr
    have hbody2bt : ∀ ch ∈ oc.data ++ ['\n'], ch ≠ '`' := by
      intro ch hch he
      subst he
      rcases List.mem_append.mp hch with h | h
      · exact hocbt '`' h rfl
      · revert h; decide
    -- the single collapse step
    have hstep : subStep ((A ++ renTail idx ((p, c) :: rest)).asString)
        (p, get_file_language p, bodyF (p, c)) =
        ((A ++ p.data ++ c.data) ++ renTail idx rest).asString := by
      unfold subStep
      rw [asString_data]
      have hsplit : A ++ renTail idx ((p, c) :: rest) =
          A ++ (blockHeader (get_file_language p) p ++
            ((oc.data ++ ['\n']) ++ '`' :: '`' :: '`' :: (c.data ++ renTail idx rest))) := by
        rw [renTail, hbf, blockL_as_header, hHd]
        simp
      rw [hsplit]
      rw [subBlockF_skip (blockHeader (get_file_language p) p) p.data hHd A hA _ _
        (by rw [List.length_append]; omega)]
      have hrem : (A ++ (blockHeader (get_file_language p) p ++
          ((oc.data ++ ['\n']) ++ '`' :: '`' :: '`' :: (c.data ++ renTail idx rest)))).length -
          A.length =
          (blockHeader (get_file_language p) p ++
            ((oc.data ++ ['\n']) ++ '`' :: '`' :: '`' :: (c.data ++ renTail idx rest))).length := by
        rw [List.length_append]; omega
      rw [hrem]
      obtain ⟨f, hf⟩ : ∃ f, (blockHeader (get_file_language p) p ++
          ((oc.data ++ ['\n']) ++ '`' :: '`' :: '`' :: (c.data ++ renTail idx rest))).length =
          f + 1 := by
        rw [hHd]
        exact ⟨_, rfl⟩
      rw [hf]
      rw [subBlockF_match f (blockHeader (get_file_language p) p) p.data (oc.data ++ ['\n'])
        (c.data ++ renTail idx rest) (by rw [hHd]; simp) hbody2bt]
      rw [subBlockF_not_occurs _ _ _ f hnoH]
      apply congrArg List.asString
      simp
    rw [List.map_cons, List.foldl_cons, hstep]
    rw [ih bodyF (A ++ p.data ++ c.data) (fun s hs => hmem s (List.mem_cons_of_mem _ hs))
      hndr (fun s hs => hcbt s (List.mem_cons_of_mem _ hs)) hinnerr hlastr
      (by
        intro h
        rcases List.mem_append.mp h with h1 | h1
        · rcases List.mem_append.mp h1 with h2 | h2
          · exact hA h2
          · exact hpbt h2
        · exact hc2bt h1)]
    apply congrArg List.asString
    rw [rawTail]
    simp

/-- Collapsing a backtick-free text is the identity. -/
lemma convert_of_clean (t : String) (ht : '`' ∉ t.data) :
    convert_rendered_to_raw t = t := by
  rw [convert_rendered_to_raw_eq]
  by_cases hTe : t = ""
  · rw [if_pos (by simp [hTe]), hTe]
  · rw [if_neg (by simp [hTe])]
    have hext : extract_file_paths_from_rendered t = [] := by
      unfold extract_file_paths_from_rendered
      rw [extractLoopF_clean t.data ht _ (le_refl _), List.map_nil]
    rw [hext, List.foldl_nil]

/-- Claim C2 (amended): the render/unrender round trip is the identity
on structured texts.  The text is a leading chunk followed by
alternating reference tokens and chunks; the detected references are
exactly the segment tokens, pairwise distinct and mutually
non-substring; every referenced file exists with backtick-free content
containing no reference token; chunks are backtick-free, contain no
reference token, and are whitespace-bounded at every junction; then
`convert_rendered_to_raw (process_content_for_copy T {})` returns `T`
exactly. -/
theorem render_unrender_roundtrip
    (idx : CPIndexer)
    (c0 : String) (segs : List (String × String)) (T : String)
    (hT : T.data = c0.data ++ rawTail segs)
    (hdetect : extract_file_references idx T = segs.map Prod.fst)
    (hshape : ∀ r ∈ segs.map Prod.fst, r.data ≠ [] ∧
      (∀ ch ∈ r.data, isTokChar ch = true ∧ ch ≠ '`') ∧ '.' ∈ r.data)
    (hnodup : (segs.map Prod.fst).Nodup)
    (hpairs : ∀ r1 ∈ segs.map Prod.fst, ∀ r2 ∈ segs.map Prod.fst, r1 ≠ r2 →
      occursB r1.data r2.data = false)
    (hfiles : ∀ r ∈ segs.map Prod.fst,
      contentOkB (segs.map Prod.fst) (get_file_content idx r) = true)
    (hchunksbt : ∀ ch ∈ c0 :: segs.map Prod.snd, ∀ x ∈ ch.data, x ≠ '`')
    (hchunksocc : ∀ ch ∈ c0 :: segs.map Prod.snd, ∀ r ∈ segs.map Prod.fst,
      occursB r.data ch.data = false)
    (hc0 : segs = [] ∨ c0 = "" ∨ endsWS c0 = true)
    (hinner : ∀ s ∈ segs.dropLast, startsWS s.2 = true ∧ endsWS s.2 = true)
    (hlastc : ∀ s, segs.getLast? = some s → s.2 = "" ∨ startsWS s.2 = true) :
    convert_rendered_to_raw (process_content_for_copy idx T []) = T := by
  have hc0bt : '`' ∉ c0.data :=
    fun h => hchunksbt c0 (List.mem_cons_self _ _) '`' h rfl
  have hpairsL : ∀ r1 ∈ segs.map Prod.fst, ∀ r2 ∈ segs.map Prod.fst, r1 ≠ r2 →
      ¬ occursL r1.data r2.data := by
    intro r1 h1 r2 h2 hne hocc
    have hb := hpairs r1 h1 r2 h2 hne
    rw [(occursB_iff _ _).mpr hocc] at hb
    cases hb
  have hckyL : ∀ s ∈ segs, (∀ ch ∈ s.2.data, ch ≠ '`') ∧
      (∀ r ∈ segs.map Prod.fst, ¬ occursL r.data s.2.data) := by
    intro s hs
    have hm : s.2 ∈ c0 :: segs.map Prod.snd :=
      List.mem_cons_of_mem _ (List.mem_map_of_mem Prod.snd hs)
    refine ⟨hchunksbt s.2 hm, ?_⟩
    intro r hr hocc
    have hb := hchunksocc s.2 hm r hr
    rw [(occursB_iff _ _).mpr hocc] at hb
    cases hb
  have hmemr : ∀ s ∈ segs, s.1 ∈ segs.map Prod.fst :=
    fun s hs => List.mem_map_of_mem Prod.fst hs
  cases hroot : idx.root with
  | none =>
    have hrefsnil : segs.map Prod.fst = [] := by
      rw [← hdetect]
      unfold extract_file_references
      apply List.filter_eq_nil.mpr
      intro m _
      unfold get_file_content
      rw [hroot]
      simp
    have hsegsnil : segs = [] := List.map_eq_nil.mp hrefsnil
    subst hsegsnil
    have hproc : process_content_for_copy idx T [] = T := by
      rw [process_content_for_copy_eq]
      simp only [hroot]
    have hTbt : '`' ∉ T.data := by
      rw [hT, rawTail, List.append_nil]
      exact hc0bt
    rw [hproc]
    exact convert_of_clean T hTbt
  | some root =>
    have hP1 : segs = [] ∨ c0.data = [] ∨
        ∃ w P', c0.data = P' ++ [w] ∧ isPyWs w = true := by
      rcases hc0 with h | h | h
      · exact Or.inl h
      · right; left; rw [h]
      · right; right
        obtain ⟨w, l, hcd, hw⟩ := endsWS_data h
        exact ⟨w, l, hcd, hw⟩
    have hP2 : ∀ s ∈ segs, ¬ occursL s.1.data c0.data := by
      intro s hs hocc
      have hb := hchunksocc c0 (List.mem_cons_self _ _) s.1 (hmemr s hs)
      rw [(occursB_iff _ _).mpr hocc] at hb
      cases hb
    have hproc : process_content_for_copy idx T [] =
        (c0.data ++ renTail idx segs).asString := by
      rw [process_content_for_copy_eq]
      simp only [hroot]
      rw [hdetect]
      have hTas : T = (c0.data ++ rawTail segs).asString := by
        rw [← hT]
        exact (data_asString T).symm
      rw [hTas]
      exact render_fold idx (segs.map Prod.fst) hshape hpairsL hfiles segs c0.data
        hmemr hnodup hckyL hinner hlastc hP1 hP2
    rw [hproc]
    cases hsegs : segs with
    | nil =>
      have hRT : (c0.data ++ renTail idx []).asString = T := by
        apply asString_eq
        rw [hT, hsegs, rawTail, renTail]
      rw [hRT]
      apply convert_of_clean
      rw [hT, hsegs, rawTail, List.append_nil]
      exact hc0bt
    | cons s1 srest =>
      have hs1m : s1.1 ∈ segs.map Prod.fst := hmemr s1 (by rw [hsegs]; simp)
      obtain ⟨oc1, hoc1, _, _⟩ := contentOkB_some (hfiles s1.1 hs1m)
      have hbf1 : blockFor idx s1.1 =
          blockL (get_file_language s1.1).data s1.1.data (oc1.data ++ ['\n']) := by
        rw [blockFor, hoc1]
        exact code_block_data _ _ _
      have hRne : (c0.data ++ renTail idx (s1 :: srest)).asString ≠ "" := by
        intro h
        have hd := congrArg String.data h
        rw [asString_data, empty_data] at hd
        rcases List.append_eq_nil.mp hd with ⟨_, h2⟩
        obtain ⟨p1, c1⟩ := s1
        rw [renTail] at h2
        rw [hbf1, blockL_append] at h2
        cases h2
      rw [convert_rendered_to_raw_eq]
      rw [if_neg (by simp [hRne])]
      -- the extraction of the rendered text
      have hcbt1 : ∀ s ∈ s1 :: srest, ∀ ch ∈ s.2.data, ch ≠ '`' := by
        intro s hs
        have hs' : s ∈ segs := by rw [hsegs]; exact hs
        exact (hckyL s hs').1
      have hmem1 : ∀ s ∈ s1 :: srest, s.1 ∈ segs.map Prod.fst := by
        intro s hs
        apply hmemr
        rw [hsegs]
        exact hs
      have hext : extract_file_paths_from_rendered
          ((c0.data ++ renTail idx (s1 :: srest)).asString) =
          (s1 :: srest).map (fun s => (s.1, get_file_language s.1,
            (pyStripL (((get_file_content idx s.1).getD "").data ++ ['\n'])).asString)) := by
        unfold extract_file_paths_from_rendered
        rw [asString_data]
        rw [extract_renTail idx (segs.map Prod.fst) hshape hfiles (s1 :: srest) c0.data _
          hmem1 hcbt1 hc0bt (le_of_eq (List.length_append _ _).symm)]
        rw [List.map_map]
        apply List.map_congr_left
        intro s hs
        have hsm : s.1 ∈ segs.map Prod.fst := hmem1 s hs
        obtain ⟨_, hws, _, _⟩ := refShape_facts hshape hsm
        have hps : pyStripL s.1.data = s.1.data := pyStripL_no_ws hws
        have hls : pyStripL (get_file_language s.1).data = (get_file_language s.1).data :=
          pyStripL_no_ws (fun ch hch => wordChar_not_ws ((get_file_language_word s.1).1 ch hch))
        simp only [Function.comp]
        rw [hps, hls, data_asString, data_asString]
      rw [hext]
      have hinner1 : ∀ s ∈ (s1 :: srest).dropLast, startsWS s.2 = true := by
        intro s hs
        have hs' : s ∈ segs.dropLast := by rw [hsegs]; exact hs
        exact (hinner s hs').1
      have hlastc1 : ∀ s, (s1 :: srest).getLast? = some s →
          s.2 = "" ∨ startsWS s.2 = true := by
        intro s hs
        apply hlastc
        rw [hsegs]
        exact hs
      have hnodup1 : ((s1 :: srest).map Prod.fst).Nodup := by
        rw [← hsegs]
        exact hnodup
      rw [convert_fold idx (segs.map Prod.fst) hshape hfiles (s1 :: srest)
        (fun s => (pyStripL (((get_file_content idx s.1).getD "").data ++ ['\n'])).asString)
        c0.data hmem1 hnodup1 hcbt1 hinner1 hlastc1 hc0bt]
      apply asString_eq
      rw [hT, hsegs]

/-- Concrete instance discharging the hypotheses of
`render_unrender_roundtrip`: two references, both files present, and
whitespace-separated chunks. -/
theorem render_unrender_roundtrip_witness :
    extract_file_references ⟨some "/r", [("a.py", "x=1"), ("b/c.js", "y")]⟩
        "see a.py and b/c.js end" = ["a.py", "b/c.js"]
    ∧ convert_rendered_to_raw
        (process_content_for_copy ⟨some "/r", [("a.py", "x=1"), ("b/c.js", "y")]⟩
          "see a.py and b/c.js end" []) = "see a.py and b/c.js end" :=
  ⟨by decide,
   render_unrender_roundtrip ⟨some "/r", [("a.py", "x=1"), ("b/c.js", "y")]⟩
     "see " [("a.py", " and "), ("b/c.js", " end")] "see a.py and b/c.js end"
     (by decide) (by decide) (by decide) (by decide) (by decide) (by decide)
     (by decide) (by decide) (by decide) (by decide)
     (by
       intro s hs
       have h2 : some (("b/c.js", " end") : String × String) = some s := hs
       obtain rfl := Option.some.inj h2
       exact Or.inr (by decide))⟩

end JContext
